import Mathlib

/-!
Ray–sphere intersection (`Vector3D.cpp`)

A shallow embedding of the three classes of `Vector3D.cpp` (`vec3`, `ray`, `sphere`).

* The program is written once, over a type `F` that has the operations the program applies to
  a `float`: `+`, `-`, `*`, `/`, unary minus, the literal `0`, `<` and `==`.  No law of
  arithmetic is assumed of `F`.
* The C++ type `float` is the type `F32` below: IEEE 754 binary32, every operation rounded to
  nearest, ties to even, with overflow to an infinity, gradual underflow and NaN.  The program
  of the source is the instance `F = F32`, and the properties of the program are stated there.
* Every arithmetic operation of the source is one binary32 operation: intermediate results are
  rounded to `float` one by one (`FLT_EVAL_METHOD` is `0`), and a product and a sum are not
  contracted into a fused multiply-add.
* The instance `F = ℝ` is the program run with exact arithmetic.  It serves to state facts
  about the exact values of `float` data (a point lies on a sphere, a line meets a sphere) and
  for a few scenarios in which every intermediate value is computed without rounding.
* `std::sqrt` is a library function, not part of the program: it is the explicit parameter
  `sqrt : F → F` of every function that calls it.  For `float` it is `F32.sqrt`, the correctly
  rounded square root; with exact arithmetic it is `Real.sqrt`.
* `assert(a != 0)` in `operator/` is modelled by an `Option` result: `none` is a failed
  assertion.  Every function that calls `operator/` propagates the failure.  `operator/=` mutates
  its receiver, so its failure is an `Except.error` that carries the receiver's state.
* The output parameter `vec3& hit` of `sphere::rayIntersect` is modelled by state passing: the
  function takes the caller's value of `hit` and returns the boolean together with the final
  value of `hit`.
-/

/-- The class `vec3`: three `float` components. -/
structure vec3 (F : Type) where
  x : F
  y : F
  z : F
deriving DecidableEq

/-- The class `ray`: an origin and a direction. -/
structure ray (F : Type) where
  origin : vec3 F
  direction : vec3 F
deriving DecidableEq

/-- The class `sphere`: a center and a radius. -/
structure sphere (F : Type) where
  center : vec3 F
  radius : F
deriving DecidableEq

namespace vec3

variable {F : Type} [Add F] [Sub F] [Mul F] [Div F] [Neg F] [Zero F] [LT F]
  [DecidableRel (α := F) (· < ·)] [DecidableEq F]

/-- The default constructor `vec3() : x(0), y(0), z(0)`. -/
def ctor₀ : vec3 F := ⟨0, 0, 0⟩

/-- Operator `vec3 operator+(const vec3& b) const`. -/
def add (v b : vec3 F) : vec3 F := ⟨v.x + b.x, v.y + b.y, v.z + b.z⟩

/-- Operator `vec3 operator-(const vec3& b) const`. -/
def sub (v b : vec3 F) : vec3 F := ⟨v.x - b.x, v.y - b.y, v.z - b.z⟩

/-- Operator `vec3 operator/(float a) const`: `none` when `assert(a != 0)` fails. -/
def div (v : vec3 F) (a : F) : Option (vec3 F) :=
  if a ≠ 0 then some ⟨v.x / a, v.y / a, v.z / a⟩ else none

/-- Operator `vec3 operator*(float a) const`. -/
def mul (v : vec3 F) (a : F) : vec3 F := ⟨v.x * a, v.y * a, v.z * a⟩

/-- Operator `vec3& operator+=(const vec3& b)`: the receiver after the update. -/
def addAssign (v b : vec3 F) : vec3 F :=
  let x := v.x + b.x
  let y := v.y + b.y
  let z := v.z + b.z
  ⟨x, y, z⟩

/-- Operator `vec3& operator-=(const vec3& b)`: the receiver after the update. -/
def subAssign (v b : vec3 F) : vec3 F :=
  let x := v.x - b.x
  let y := v.y - b.y
  let z := v.z - b.z
  ⟨x, y, z⟩

/-- Operator `vec3& operator*=(float b)`: the receiver after the update. -/
def mulAssign (v : vec3 F) (b : F) : vec3 F :=
  let x := v.x * b
  let y := v.y * b
  let z := v.z * b
  ⟨x, y, z⟩

/-- Operator `vec3& operator/=(float b)`, with the receiver as explicit state: `ok` carries the
receiver after the three assignments; `error` is the failure of `assert(b != 0)` and carries the
receiver as it is at that point, which is before any assignment has run. -/
def divAssign (v : vec3 F) (b : F) : Except (vec3 F) (vec3 F) :=
  if b ≠ 0 then
    let x := v.x / b
    let y := v.y / b
    let z := v.z / b
    Except.ok ⟨x, y, z⟩
  else Except.error v

/-- Method `float length() const`. -/
def length (sqrt : F → F) (v : vec3 F) : F := sqrt (v.x * v.x + v.y * v.y + v.z * v.z)

/-- Method `float lengthSquared() const`. -/
def lengthSquared (v : vec3 F) : F := v.x * v.x + v.y * v.y + v.z * v.z

/-- Operator `friend vec3 operator*(float b, const vec3& a)`, which returns `a * b`. -/
def smul (b : F) (a : vec3 F) : vec3 F := a.mul b

/-- Method `float dot(const vec3& a) const`. -/
def dot (v a : vec3 F) : F := v.x * a.x + v.y * a.y + v.z * a.z

/-- Method `vec3 cross(const vec3& a) const`. -/
def cross (v a : vec3 F) : vec3 F :=
  ⟨v.y * a.z - v.z * a.y, -(v.x * a.z - v.z * a.x), v.x * a.y - v.y * a.x⟩

/-- Method `vec3 normalized() const`: `len > 0 ? *this / len : vec3()`. -/
def normalized (sqrt : F → F) (v : vec3 F) : Option (vec3 F) :=
  let len := v.length sqrt
  if len > 0 then v.div len else some ctor₀

/-- Method `void normalize()`: the receiver after `*this = normalized()`. -/
def normalize (sqrt : F → F) (v : vec3 F) : Option (vec3 F) :=
  v.normalized sqrt

end vec3

namespace ray

variable {F : Type} [Add F] [Sub F] [Mul F] [Div F] [Neg F] [Zero F] [LT F]
  [DecidableRel (α := F) (· < ·)] [DecidableEq F]

/-- The default constructor `ray() : origin(), direction()`. -/
def ctor₀ : ray F := ⟨vec3.ctor₀, vec3.ctor₀⟩

/-- The constructor `ray(const vec3& a, const vec3& b)`: the fields are initialised from the
arguments, then the body runs `direction.normalize()`. -/
def ctor (sqrt : F → F) (a b : vec3 F) : Option (ray F) :=
  let r : ray F := ⟨a, b⟩
  (r.direction.normalize sqrt).map fun d => { r with direction := d }

/-- Method `vec3 pointAtDist(float dist) const`. -/
def pointAtDist (r : ray F) (dist : F) : vec3 F :=
  let ref := vec3.smul dist r.direction
  ref.add r.origin

end ray

namespace sphere

variable {F : Type} [Add F] [Sub F] [Mul F] [Div F] [Neg F] [Zero F] [LT F]
  [DecidableRel (α := F) (· < ·)] [DecidableEq F]

/-- The constructor `sphere(const vec3& a, float b)`. -/
def ctor (a : vec3 F) (b : F) : sphere F := ⟨a, b⟩

/-- The default constructor `sphere() : center(), radius{0}`. -/
def ctor₀ : sphere F := ⟨vec3.ctor₀, 0⟩

/-- Method `bool rayIntersect(const ray& a, vec3& hit)`: the returned boolean and the value of `hit`
on return. -/
def rayIntersect (sqrt : F → F) (s : sphere F) (a : ray F) (hit : vec3 F) : Bool × vec3 F :=
  let b := a.direction.dot (a.origin.sub s.center)
  let c := (a.origin.sub s.center).dot (a.origin.sub s.center) - s.radius * s.radius
  let det := b * b - c
  if det < 0 then
    (false, hit)
  else if det = 0 then
    (true, a.pointAtDist (-b))
  else
    let t1 := -b + sqrt det
    let t2 := -b - sqrt det
    if t1 > t2 then
      (true, a.pointAtDist t2)
    else
      (true, a.pointAtDist t1)

end sphere

namespace sphere

variable {F : Type} [Add F] [Sub F] [Mul F] [Div F] [Neg F] [Zero F] [LT F]
  [DecidableRel (α := F) (· < ·)] [DecidableEq F]

/-- The local `b` of `rayIntersect`: `a.direction.dot(a.origin - center)`. -/
def coefB (s : sphere F) (a : ray F) : F :=
  a.direction.dot (a.origin.sub s.center)

/-- The local `c` of `rayIntersect`:
`(a.origin - center).dot(a.origin - center) - radius * radius`. -/
def coefC (s : sphere F) (a : ray F) : F :=
  (a.origin.sub s.center).dot (a.origin.sub s.center) - s.radius * s.radius

/-- The local `det` of `rayIntersect`: `b * b - c`. -/
def det (s : sphere F) (a : ray F) : F :=
  coefB s a * coefB s a - coefC s a

/-- The point `p` lies on the surface of the sphere: its squared distance to the center is the
squared radius. -/
def onSurface (s : sphere F) (p : vec3 F) : Prop :=
  (p.sub s.center).dot (p.sub s.center) = s.radius * s.radius

instance (s : sphere F) (p : vec3 F) : Decidable (onSurface s p) := by
  unfold onSurface; exact inferInstance

/-- The two-branch variant of `rayIntersect` that the design notes describe, with the tangent case
folded into the two-root branch: "no hit" when `det < 0`; otherwise `t1 = -b + sqrt det`,
`t2 = -b - sqrt det`, and the hit is `pointAtDist` of the smaller one (if `t1 > t2` report `t2`,
otherwise report `t1`).  It is not code of the program; it is what `rayIntersect` is compared
with. -/
def rayIntersectTwoBranch (sqrt : F → F) (s : sphere F) (a : ray F) (hit : vec3 F) :
    Bool × vec3 F :=
  let b := a.direction.dot (a.origin.sub s.center)
  let c := (a.origin.sub s.center).dot (a.origin.sub s.center) - s.radius * s.radius
  let det := b * b - c
  if det < 0 then
    (false, hit)
  else
    let t1 := -b + sqrt det
    let t2 := -b - sqrt det
    if t1 > t2 then
      (true, a.pointAtDist t2)
    else
      (true, a.pointAtDist t1)

end sphere

/-! ## The type `float`: IEEE 754 binary32 with round-to-nearest-even -/

/-- The values of the C++ type `float` (IEEE 754 binary32).  `fin n` is the finite value
`n * 2^(-149)`: every finite binary32 value is such a multiple, with an `n` of at most 24
significant binary digits and of magnitude below `2^277` (see `F32.Valid`).  The two zeros are one
value `fin 0` and all NaNs are one value `nan`: the program never divides by zero and never
inspects the sign of a zero or the payload of a NaN, and `==` and `<` do not tell them apart. -/
inductive F32 where
  | nan : F32
  | inf (neg : Bool) : F32
  | fin (n : ℤ) : F32
deriving DecidableEq

namespace F32

/-- Number of binary digits of `a`, computed with `fuel` halvings. -/
def bitlenAux : ℕ → ℕ → ℕ
  | 0, _ => 0
  | fuel + 1, a => if a = 0 then 0 else bitlenAux fuel (a / 2) + 1

/-- Number of binary digits of `a` (`0` for `0`). -/
def bitlen (a : ℕ) : ℕ := bitlenAux a a

/-- Number of low-order binary digits that a magnitude with integer part `a` loses when it is
kept to the 24 significant digits of binary32. -/
def shift (a : ℕ) : ℕ := bitlen a - 24

/-- The integer nearest to `num / den`, ties going to the even one. -/
def rne (num den : ℕ) : ℕ :=
  let q := num / den
  let r := num % den
  if 2 * r < den then q
  else if den < 2 * r then q + 1
  else if q % 2 = 0 then q else q + 1

/-- The magnitude `num / den` (in units of `2^(-149)`) rounded to the nearest magnitude with 24
significant binary digits, ties to even. -/
def roundMag (num den : ℕ) : ℕ :=
  let s := shift (num / den)
  2 ^ s * rne num (den * 2 ^ s)

/-- Round-to-nearest-even of the value `± num / den` (in units of `2^(-149)`) to binary32;
magnitudes that round to `2^128` or more overflow to infinity. -/
def round (neg : Bool) (num den : ℕ) : F32 :=
  let m := roundMag num den
  if 2 ^ 128 * 2 ^ 149 ≤ m then inf neg else fin (if neg then -(m : ℤ) else (m : ℤ))

/-- Unary minus. -/
def neg : F32 → F32
  | nan => nan
  | inf s => inf (!s)
  | fin n => fin (-n)

/-- Addition. -/
def add : F32 → F32 → F32
  | nan, _ => nan
  | _, nan => nan
  | inf s, inf t => if s = t then inf s else nan
  | inf s, fin _ => inf s
  | fin _, inf t => inf t
  | fin a, fin b => round (decide (a + b < 0)) (a + b).natAbs 1

/-- Subtraction. -/
def sub (x y : F32) : F32 := add x (neg y)

/-- Multiplication. -/
def mul : F32 → F32 → F32
  | nan, _ => nan
  | _, nan => nan
  | inf s, inf t => inf (xor s t)
  | inf s, fin b => if b = 0 then nan else inf (xor s (decide (b < 0)))
  | fin a, inf t => if a = 0 then nan else inf (xor (decide (a < 0)) t)
  | fin a, fin b => round (decide (a * b < 0)) (a * b).natAbs (2 ^ 149)

/-- Division.  A finite nonzero value divided by zero is an infinity whose sign depends on the
sign of the zero; the model gives it the sign of the dividend.  The program never gets there:
`operator/` and `operator/=` assert a nonzero divisor. -/
def div : F32 → F32 → F32
  | nan, _ => nan
  | _, nan => nan
  | inf _, inf _ => nan
  | inf s, fin b => inf (xor s (decide (b < 0)))
  | fin _, inf _ => fin 0
  | fin a, fin b =>
    if b = 0 then (if a = 0 then nan else inf (decide (a < 0)))
    else round (xor (decide (a < 0)) (decide (b < 0))) (a.natAbs * 2 ^ 149) b.natAbs

/-- Integer square root by binary digits: adds `2^k` to `r` for `k` below the first argument
whenever the square stays at most `N`. -/
def isqrtAux : ℕ → ℕ → ℕ → ℕ
  | 0, _, r => r
  | k + 1, N, r =>
    if (r + 2 ^ k) * (r + 2 ^ k) ≤ N then isqrtAux k N (r + 2 ^ k) else isqrtAux k N r

/-- The largest `r` with `r * r ≤ N`. -/
def isqrt (N : ℕ) : ℕ := isqrtAux (bitlen N / 2 + 1) N 0

/-- The square root of the integer `N` rounded to 24 significant binary digits, ties to even. -/
def sqrtMag (N : ℕ) : ℕ :=
  let s := shift (isqrt N)
  let m := isqrt (N / 4 ^ s)
  if 4 * N < 4 ^ s * ((2 * m + 1) * (2 * m + 1)) then 2 ^ s * m
  else if 4 ^ s * ((2 * m + 1) * (2 * m + 1)) < 4 * N then 2 ^ s * (m + 1)
  else if m % 2 = 0 then 2 ^ s * m else 2 ^ s * (m + 1)

/-- The function `std::sqrt` on `float`. -/
def sqrt : F32 → F32
  | nan => nan
  | inf s => if s then nan else inf false
  | fin n => if n < 0 then nan else fin (sqrtMag (n.natAbs * 2 ^ 149))

/-- The comparison `<` of `float`: false whenever an operand is not a number. -/
def lt : F32 → F32 → Bool
  | nan, _ => false
  | _, nan => false
  | inf s, inf t => s && !t
  | inf s, fin _ => s
  | fin _, inf t => !t
  | fin a, fin b => decide (a < b)

/-- The comparison `<=` of `float`: false whenever an operand is not a number. -/
def le : F32 → F32 → Bool
  | nan, _ => false
  | _, nan => false
  | inf s, inf t => s || !t
  | inf s, fin _ => s
  | fin _, inf t => !t
  | fin a, fin b => decide (a ≤ b)

/-- The `float` nearest to `n * 2^e`: the value of a literal. -/
def lit (n : ℤ) (e : ℤ) : F32 :=
  if 0 ≤ e + 149 then round (decide (n < 0)) (n.natAbs * 2 ^ (e + 149).toNat) 1
  else round (decide (n < 0)) n.natAbs (2 ^ (-(e + 149)).toNat)

/-- The `float` nearest to the integer `n`. -/
def ofInt (n : ℤ) : F32 := lit n 0

/-- The exact value of a finite `float` (and `0` for the others). -/
def toRat : F32 → ℚ
  | fin n => n / 2 ^ 149
  | _ => 0

/-- The finite values. -/
def IsFin : F32 → Prop
  | fin _ => True
  | _ => False

instance (x : F32) : Decidable (IsFin x) := by
  cases x <;> unfold IsFin <;> exact inferInstance

/-- The values of binary32: not-a-number, the infinities, and `n * 2^(-149)` for the integers `n`
of magnitude below `2^277` whose digits below the leading 24 are zero. -/
def Valid : F32 → Prop
  | fin n => n.natAbs < 2 ^ 128 * 2 ^ 149 ∧ 2 ^ shift n.natAbs ∣ n.natAbs
  | _ => True

instance (x : F32) : Decidable (Valid x) := by
  cases x <;> unfold Valid <;> exact inferInstance

/-- A function that agrees with `sqrt` except at not-a-number, where it returns zero. -/
def sqrtAlt (x : F32) : F32 := if x = nan then fin 0 else sqrt x

instance : Add F32 := ⟨add⟩
instance : Sub F32 := ⟨sub⟩
instance : Mul F32 := ⟨mul⟩
instance : Div F32 := ⟨div⟩
instance : Neg F32 := ⟨neg⟩
instance : Zero F32 := ⟨fin 0⟩
instance : LT F32 := ⟨fun x y => lt x y = true⟩
instance : LE F32 := ⟨fun x y => le x y = true⟩
instance : DecidableRel (α := F32) (· < ·) := fun x y => inferInstanceAs (Decidable (lt x y = true))
instance : DecidableRel (α := F32) (· ≤ ·) := fun x y => inferInstanceAs (Decidable (le x y = true))

end F32

/-- The sum of two finite values is computed without rounding: it is the exact sum. -/
def F32.ExactAdd : F32 → F32 → Prop
  | F32.fin p, F32.fin q => F32.fin p + F32.fin q = F32.fin (p + q)
  | _, _ => False

instance (x y : F32) : Decidable (F32.ExactAdd x y) := by
  cases x <;> cases y <;> unfold F32.ExactAdd <;> exact inferInstance

/-- The product of two finite values is computed without rounding: it is the exact product,
which is a multiple of `2^(-149)`. -/
def F32.ExactMul : F32 → F32 → Prop
  | F32.fin p, F32.fin q =>
    (2 : ℤ) ^ 149 ∣ p * q ∧ F32.fin p * F32.fin q = F32.fin (p * q / 2 ^ 149)
  | _, _ => False

instance (x y : F32) : Decidable (F32.ExactMul x y) := by
  cases x <;> cases y <;> unfold F32.ExactMul <;> exact inferInstance

/-- The three components are finite. -/
def vec3.IsFin (v : vec3 F32) : Prop := v.x.IsFin ∧ v.y.IsFin ∧ v.z.IsFin

instance (v : vec3 F32) : Decidable (vec3.IsFin v) := by
  unfold vec3.IsFin; exact inferInstance

/-- The three components are binary32 values. -/
def vec3.Valid (v : vec3 F32) : Prop := v.x.Valid ∧ v.y.Valid ∧ v.z.Valid

instance (v : vec3 F32) : Decidable (vec3.Valid v) := by
  unfold vec3.Valid; exact inferInstance

/-- The vector of the `float` values of three integers. -/
def vec3.ofInts (x y z : ℤ) : vec3 F32 := ⟨F32.ofInt x, F32.ofInt y, F32.ofInt z⟩

/-- The exact values of the components of a vector of finite `float`s, as real numbers. -/
def vec3.toReal (v : vec3 F32) : vec3 ℝ := ⟨(v.x.toRat : ℝ), (v.y.toRat : ℝ), (v.z.toRat : ℝ)⟩

/-- The exact center and radius of a sphere with finite `float` fields, as real numbers. -/
def sphere.toReal (s : sphere F32) : sphere ℝ := ⟨s.center.toReal, (s.radius.toRat : ℝ)⟩

/-- The exact origin and direction of a ray with finite `float` fields, as real numbers. -/
def ray.toReal (a : ray F32) : ray ℝ := ⟨a.origin.toReal, a.direction.toReal⟩

/-- The difference of two finite values is computed without rounding: `x - y` is `x + (-y)`. -/
def F32.ExactSub (x y : F32) : Prop := F32.ExactAdd x (-y)

instance (x y : F32) : Decidable (F32.ExactSub x y) := by
  unfold F32.ExactSub; exact inferInstance

/-- The square root of a finite value is computed without rounding: the result is finite, not
negative, and its square is the argument. -/
def F32.ExactSqrt (x : F32) : Prop :=
  match x, F32.sqrt x with
  | F32.fin n, F32.fin m => 0 ≤ m ∧ m * m = n * 2 ^ 149
  | _, _ => False

instance (x : F32) : Decidable (F32.ExactSqrt x) := by
  unfold F32.ExactSqrt; split <;> exact inferInstance

/-- The three sums of `u + v` are computed without rounding. -/
def vec3.ExactAdd (u v : vec3 F32) : Prop :=
  F32.ExactAdd u.x v.x ∧ F32.ExactAdd u.y v.y ∧ F32.ExactAdd u.z v.z

instance (u v : vec3 F32) : Decidable (vec3.ExactAdd u v) := by
  unfold vec3.ExactAdd; exact inferInstance

/-- The three differences of `u - v` are computed without rounding. -/
def vec3.ExactSub (u v : vec3 F32) : Prop :=
  F32.ExactSub u.x v.x ∧ F32.ExactSub u.y v.y ∧ F32.ExactSub u.z v.z

instance (u v : vec3 F32) : Decidable (vec3.ExactSub u v) := by
  unfold vec3.ExactSub; exact inferInstance

/-- The three products of `v * t` are computed without rounding. -/
def vec3.ExactMul (v : vec3 F32) (t : F32) : Prop :=
  F32.ExactMul v.x t ∧ F32.ExactMul v.y t ∧ F32.ExactMul v.z t

instance (v : vec3 F32) (t : F32) : Decidable (vec3.ExactMul v t) := by
  unfold vec3.ExactMul; exact inferInstance

/-- The three products and the two sums of `u.dot(v)` are computed without rounding. -/
def vec3.ExactDot (u v : vec3 F32) : Prop :=
  F32.ExactMul u.x v.x ∧ F32.ExactMul u.y v.y ∧ F32.ExactMul u.z v.z ∧
  F32.ExactAdd (u.x * v.x) (u.y * v.y) ∧ F32.ExactAdd (u.x * v.x + u.y * v.y) (u.z * v.z)

instance (u v : vec3 F32) : Decidable (vec3.ExactDot u v) := by
  unfold vec3.ExactDot; exact inferInstance

/-- The products and sums of `pointAtDist(t)` are computed without rounding. -/
def ray.ExactPoint (a : ray F32) (t : F32) : Prop :=
  vec3.ExactMul a.direction t ∧ vec3.ExactAdd (vec3.smul t a.direction) a.origin

instance (a : ray F32) (t : F32) : Decidable (ray.ExactPoint a t) := by
  unfold ray.ExactPoint; exact inferInstance

/-- No operation of the run of `rayIntersect` on the sphere `s` and the ray `a` rounds: the fields
are finite and every sum, difference, product and square root that the run computes, in
`rayIntersect` and in the call of `pointAtDist` that it makes, is the exact one. -/
def sphere.ExactRun (s : sphere F32) (a : ray F32) : Prop :=
  vec3.ExactSub a.origin s.center ∧
  vec3.ExactDot a.direction (a.origin.sub s.center) ∧
  vec3.ExactDot (a.origin.sub s.center) (a.origin.sub s.center) ∧
  F32.ExactMul s.radius s.radius ∧
  F32.ExactSub ((a.origin.sub s.center).dot (a.origin.sub s.center)) (s.radius * s.radius) ∧
  F32.ExactMul (s.coefB a) (s.coefB a) ∧
  F32.ExactSub (s.coefB a * s.coefB a) (s.coefC a) ∧
  (¬ s.det a < 0 →
    if s.det a = 0 then a.ExactPoint (-s.coefB a)
    else
      F32.ExactSqrt (s.det a) ∧
      F32.ExactAdd (-s.coefB a) (F32.sqrt (s.det a)) ∧
      F32.ExactSub (-s.coefB a) (F32.sqrt (s.det a)) ∧
      a.ExactPoint (if -s.coefB a + F32.sqrt (s.det a) > -s.coefB a - F32.sqrt (s.det a)
        then -s.coefB a - F32.sqrt (s.det a) else -s.coefB a + F32.sqrt (s.det a)))

instance (s : sphere F32) (a : ray F32) : Decidable (sphere.ExactRun s a) := by
  unfold sphere.ExactRun; exact inferInstance

/-- The six products of `a.cross(b)` are computed without rounding. -/
def vec3.ExactCross (a b : vec3 F32) : Prop :=
  F32.ExactMul a.y b.z ∧ F32.ExactMul a.z b.y ∧ F32.ExactMul a.x b.z ∧
  F32.ExactMul a.z b.x ∧ F32.ExactMul a.x b.y ∧ F32.ExactMul a.y b.x

instance (a b : vec3 F32) : Decidable (vec3.ExactCross a b) := by
  unfold vec3.ExactCross; exact inferInstance

/-! ## General facts about the embedding -/

section unfold

variable {F : Type}

/-- The body of `rayIntersect`, with its locals named. -/
theorem sphere.rayIntersect_unfold [Add F] [Sub F] [Mul F] [Neg F] [Zero F] [LT F]
    [DecidableRel (α := F) (· < ·)] [DecidableEq F]
    (sqrt : F → F) (s : sphere F) (a : ray F) (hit : vec3 F) :
    s.rayIntersect sqrt a hit =
      if s.det a < 0 then (false, hit)
      else if s.det a = 0 then (true, a.pointAtDist (-s.coefB a))
      else if -s.coefB a + sqrt (s.det a) > -s.coefB a - sqrt (s.det a) then
        (true, a.pointAtDist (-s.coefB a - sqrt (s.det a)))
      else (true, a.pointAtDist (-s.coefB a + sqrt (s.det a))) := rfl

/-- The components of `pointAtDist`. -/
theorem ray.pointAtDist_eq [Add F] [Mul F] (r : ray F) (t : F) :
    r.pointAtDist t =
      ⟨r.direction.x * t + r.origin.x, r.direction.y * t + r.origin.y,
        r.direction.z * t + r.origin.z⟩ := rfl

/-- The body of `rayIntersectTwoBranch`, with its locals named. -/
theorem sphere.rayIntersectTwoBranch_unfold [Add F] [Sub F] [Mul F] [Neg F] [Zero F] [LT F]
    [DecidableRel (α := F) (· < ·)]
    (sqrt : F → F) (s : sphere F) (a : ray F) (hit : vec3 F) :
    s.rayIntersectTwoBranch sqrt a hit =
      if s.det a < 0 then (false, hit)
      else if -s.coefB a + sqrt (s.det a) > -s.coefB a - sqrt (s.det a) then
        (true, a.pointAtDist (-s.coefB a - sqrt (s.det a)))
      else (true, a.pointAtDist (-s.coefB a + sqrt (s.det a))) := rfl

end unfold

section lemmas

variable {F : Type} [LinearOrderedField F]

/-- Substituting the point at parameter `t` into the sphere equation gives the quadratic
`(D·D) t² + 2 b t + c = 0`. -/
theorem sphere.onSurface_pointAtDist (s : sphere F) (a : ray F) (t : F) :
    s.onSurface (a.pointAtDist t) ↔
      a.direction.dot a.direction * (t * t) + 2 * s.coefB a * t + s.coefC a = 0 := by
  simp only [sphere.onSurface, sphere.coefB, sphere.coefC, ray.pointAtDist_eq, vec3.dot,
    vec3.sub]
  constructor <;> intro h <;> linear_combination h

/-- For a unit direction the quadratic is `(t + b)² = det`. -/
theorem sphere.onSurface_pointAtDist_unit (s : sphere F) (a : ray F) (t : F)
    (hD : a.direction.dot a.direction = 1) :
    s.onSurface (a.pointAtDist t) ↔ (t + s.coefB a) * (t + s.coefB a) = s.det a := by
  rw [sphere.onSurface_pointAtDist, hD, sphere.det]
  constructor <;> intro h <;> linear_combination h

end lemmas

/-! ## The program with exact arithmetic

Facts about the run of the same code on real numbers.  They describe the `float` run wherever
no operation rounds (see `sphere.rayIntersect_toReal` below). -/

/-- With a positive discriminant the comparison `t1 > t2` of `rayIntersect` succeeds. -/
theorem sphere.t1_gt_t2 (b d : ℝ) (hd : 0 < d) : -b + Real.sqrt d > -b - Real.sqrt d := by
  have := Real.sqrt_pos.mpr hd
  linarith

/-- The result of `rayIntersect` when the discriminant is positive. -/
theorem sphere.rayIntersect_of_det_pos (s : sphere ℝ) (a : ray ℝ) (hit : vec3 ℝ)
    (hd : 0 < s.det a) :
    s.rayIntersect Real.sqrt a hit =
      (true, a.pointAtDist (-s.coefB a - Real.sqrt (s.det a))) := by
  rw [sphere.rayIntersect_unfold, if_neg (not_lt.mpr hd.le), if_neg hd.ne.symm,
    if_pos (sphere.t1_gt_t2 _ _ hd)]

/-- The result of `rayIntersect` when the discriminant is zero. -/
theorem sphere.rayIntersect_of_det_zero (s : sphere ℝ) (a : ray ℝ) (hit : vec3 ℝ)
    (hd : s.det a = 0) :
    s.rayIntersect Real.sqrt a hit = (true, a.pointAtDist (-s.coefB a)) := by
  rw [sphere.rayIntersect_unfold, if_neg (by rw [hd]; exact lt_irrefl 0), if_pos hd]

/-- The result of `rayIntersect` when the discriminant is negative. -/
theorem sphere.rayIntersect_of_det_neg (s : sphere ℝ) (a : ray ℝ) (hit : vec3 ℝ)
    (hd : s.det a < 0) :
    s.rayIntersect Real.sqrt a hit = (false, hit) := by
  rw [sphere.rayIntersect_unfold, if_pos hd]

/-- Whenever the discriminant is non-negative the reported point is at parameter
`-b - sqrt det`. -/
theorem sphere.rayIntersect_of_det_nonneg (s : sphere ℝ) (a : ray ℝ) (hit : vec3 ℝ)
    (hd : 0 ≤ s.det a) :
    s.rayIntersect Real.sqrt a hit =
      (true, a.pointAtDist (-s.coefB a - Real.sqrt (s.det a))) := by
  rcases hd.lt_or_eq with h | h
  · exact sphere.rayIntersect_of_det_pos s a hit h
  · rw [sphere.rayIntersect_of_det_zero s a hit h.symm, ← h, Real.sqrt_zero, sub_zero]

/-- The boolean of `rayIntersect` is `true` exactly when the discriminant is non-negative. -/
theorem sphere.rayIntersect_fst_iff (s : sphere ℝ) (a : ray ℝ) (hit : vec3 ℝ) :
    (s.rayIntersect Real.sqrt a hit).1 = true ↔ 0 ≤ s.det a := by
  rcases lt_or_le (s.det a) 0 with h | h
  · rw [sphere.rayIntersect_of_det_neg s a hit h]
    simp [not_le.mpr h]
  · rw [sphere.rayIntersect_of_det_nonneg s a hit h]
    simp [h]

/-- The claim-side expression `origin + t * direction` is the point `pointAtDist(t)`. -/
theorem ray.origin_add_smul (r : ray ℝ) (t : ℝ) :
    r.origin.add (vec3.smul t r.direction) = r.pointAtDist t := by
  simp only [ray.pointAtDist_eq, vec3.add, vec3.smul, vec3.mul, add_comm]

/-- The parameter `-b - sqrt det` solves the quadratic of a unit direction when the discriminant
is non-negative. -/
theorem sphere.onSurface_smaller_root (s : sphere ℝ) (a : ray ℝ)
    (hD : a.direction.dot a.direction = 1) (hd : 0 ≤ s.det a) :
    s.onSurface (a.pointAtDist (-s.coefB a - Real.sqrt (s.det a))) := by
  rw [sphere.onSurface_pointAtDist_unit s a _ hD]
  have h := Real.mul_self_sqrt hd
  linear_combination h

/-- Every parameter of a surface point on the line of a unit direction is at least
`-b - sqrt det`, and the discriminant is then non-negative. -/
theorem sphere.smaller_root_le (s : sphere ℝ) (a : ray ℝ)
    (hD : a.direction.dot a.direction = 1) (t : ℝ) (ht : s.onSurface (a.pointAtDist t)) :
    0 ≤ s.det a ∧ -s.coefB a - Real.sqrt (s.det a) ≤ t := by
  rw [sphere.onSurface_pointAtDist_unit s a _ hD] at ht
  refine ⟨ht ▸ mul_self_nonneg _, ?_⟩
  rw [← ht, Real.sqrt_mul_self_eq_abs]
  have := neg_abs_le (t + s.coefB a)
  linarith

/-- With exact arithmetic and a direction of unit length, a reported hit lies on the surface of the
sphere and is `pointAtDist(t)` for a root `t` of the quadratic `t^2 + 2*b*t + c = 0`. -/
theorem sphere.hit_on_surface_real (s : sphere ℝ) (a : ray ℝ) (hit : vec3 ℝ)
    (hD : a.direction.dot a.direction = 1)
    (hret : (s.rayIntersect Real.sqrt a hit).1 = true) :
    ((s.rayIntersect Real.sqrt a hit).2.sub s.center).dot
        ((s.rayIntersect Real.sqrt a hit).2.sub s.center) = s.radius * s.radius ∧
    ∃ t : ℝ, (s.rayIntersect Real.sqrt a hit).2 = a.pointAtDist t ∧
      t ^ 2 + 2 * s.coefB a * t + s.coefC a = 0 := by
  have hd : 0 ≤ s.det a := (sphere.rayIntersect_fst_iff s a hit).mp hret
  have hon := sphere.onSurface_smaller_root s a hD hd
  rw [sphere.rayIntersect_of_det_nonneg s a hit hd]
  refine ⟨hon, _, rfl, ?_⟩
  have h := (sphere.onSurface_pointAtDist s a _).mp hon
  rw [hD] at h
  linear_combination h

/-- With exact arithmetic and a direction of unit length, `rayIntersect` returns `true` exactly when
the infinite line through the ray meets the sphere, and the reported hit has the least parameter
of the points of the line on the sphere. -/
theorem sphere.iff_line_meets_real (s : sphere ℝ) (a : ray ℝ) (hit : vec3 ℝ)
    (hD : a.direction.dot a.direction = 1) :
    ((s.rayIntersect Real.sqrt a hit).1 = true ↔
      ∃ t : ℝ, ((a.origin.add (vec3.smul t a.direction)).sub s.center).dot
        ((a.origin.add (vec3.smul t a.direction)).sub s.center) = s.radius * s.radius) ∧
    ((s.rayIntersect Real.sqrt a hit).1 = true →
      ∃ t : ℝ, (s.rayIntersect Real.sqrt a hit).2 = a.origin.add (vec3.smul t a.direction) ∧
        ((a.origin.add (vec3.smul t a.direction)).sub s.center).dot
          ((a.origin.add (vec3.smul t a.direction)).sub s.center) = s.radius * s.radius ∧
        ∀ u : ℝ, ((a.origin.add (vec3.smul u a.direction)).sub s.center).dot
          ((a.origin.add (vec3.smul u a.direction)).sub s.center) = s.radius * s.radius →
          t ≤ u) := by
  simp only [ray.origin_add_smul]
  constructor
  · rw [sphere.rayIntersect_fst_iff]
    constructor
    · intro hd
      exact ⟨_, sphere.onSurface_smaller_root s a hD hd⟩
    · rintro ⟨t, ht⟩
      exact (sphere.smaller_root_le s a hD t ht).1
  · intro hret
    have hd : 0 ≤ s.det a := (sphere.rayIntersect_fst_iff s a hit).mp hret
    rw [sphere.rayIntersect_of_det_nonneg s a hit hd]
    exact ⟨_, rfl, sphere.onSurface_smaller_root s a hD hd,
      fun u hu => (sphere.smaller_root_le s a hD u hu).2⟩

/-- With exact arithmetic and `det = 0`, `rayIntersect` reports `pointAtDist(-b)`, which for a
direction of unit length is the one and only point of the line on the sphere. -/
theorem sphere.det_zero_tangent_real (s : sphere ℝ) (a : ray ℝ) (hit : vec3 ℝ)
    (hdet : s.det a = 0) :
    s.rayIntersect Real.sqrt a hit = (true, a.pointAtDist (-s.coefB a)) ∧
    (a.direction.dot a.direction = 1 →
      s.onSurface (s.rayIntersect Real.sqrt a hit).2 ∧
      ∀ t : ℝ, s.onSurface (a.pointAtDist t) →
        a.pointAtDist t = (s.rayIntersect Real.sqrt a hit).2) := by
  have hres := sphere.rayIntersect_of_det_zero s a hit hdet
  refine ⟨hres, fun hD => ?_⟩
  rw [hres]
  constructor
  · rw [sphere.onSurface_pointAtDist_unit s a _ hD, hdet]
    ring
  · intro t ht
    rw [sphere.onSurface_pointAtDist_unit s a _ hD, hdet] at ht
    have h0 : t + s.coefB a = 0 := mul_self_eq_zero.mp ht
    have ht' : t = -s.coefB a := by linarith
    rw [ht']

/-- With exact arithmetic, a direction of unit length and the origin strictly inside the sphere,
`rayIntersect` returns `true`, the roots have opposite signs and the hit is at the negative
one. -/
theorem sphere.origin_inside_real (s : sphere ℝ) (a : ray ℝ) (hit : vec3 ℝ)
    (hD : a.direction.dot a.direction = 1)
    (hin : (a.origin.sub s.center).dot (a.origin.sub s.center) < s.radius * s.radius) :
    (s.rayIntersect Real.sqrt a hit).1 = true ∧
    0 < -s.coefB a + Real.sqrt (s.det a) ∧
    -s.coefB a - Real.sqrt (s.det a) < 0 ∧
    (s.rayIntersect Real.sqrt a hit).2 = a.pointAtDist (-s.coefB a - Real.sqrt (s.det a)) ∧
    ((s.rayIntersect Real.sqrt a hit).2.sub a.origin).dot a.direction
      = -s.coefB a - Real.sqrt (s.det a) ∧
    ((s.rayIntersect Real.sqrt a hit).2.sub a.origin).dot a.direction < 0 := by
  have hc : s.coefC a < 0 := by
    simp only [sphere.coefC]
    linarith
  have hlt : s.coefB a * s.coefB a < s.det a := by
    simp only [sphere.det]
    linarith
  have hdet : 0 < s.det a := lt_of_le_of_lt (mul_self_nonneg _) hlt
  have habs : |s.coefB a| < Real.sqrt (s.det a) := by
    rw [← Real.sqrt_mul_self_eq_abs]
    exact Real.sqrt_lt_sqrt (mul_self_nonneg _) hlt
  have h1 := neg_abs_le (s.coefB a)
  have h2 := le_abs_self (s.coefB a)
  have hres := sphere.rayIntersect_of_det_pos s a hit hdet
  have hdist : ∀ t : ℝ, ((a.pointAtDist t).sub a.origin).dot a.direction = t := by
    intro t
    have hD' : a.direction.x * a.direction.x + a.direction.y * a.direction.y
        + a.direction.z * a.direction.z = 1 := hD
    simp only [ray.pointAtDist_eq, vec3.dot, vec3.sub]
    linear_combination t * hD'
  rw [hres]
  refine ⟨rfl, by linarith, by linarith, rfl, hdist _, ?_⟩
  rw [hdist]
  linarith

/-- For a unit direction, a reported hit is the point of least parameter among the points of
the ray's line that lie on the sphere. -/
theorem sphere.first_on_line (s : sphere ℝ) (r : ray ℝ) (hit : vec3 ℝ)
    (hD : r.direction.dot r.direction = 1)
    (hret : (s.rayIntersect Real.sqrt r hit).1 = true) :
    ∃ t : ℝ, (s.rayIntersect Real.sqrt r hit).2 = r.origin.add (vec3.smul t r.direction) ∧
      s.onSurface (s.rayIntersect Real.sqrt r hit).2 ∧
      ∀ u : ℝ, u < t → ¬ s.onSurface (r.origin.add (vec3.smul u r.direction)) := by
  have hdet := (sphere.rayIntersect_fst_iff s r hit).mp hret
  simp only [ray.origin_add_smul]
  rw [sphere.rayIntersect_of_det_nonneg s r hit hdet]
  refine ⟨_, rfl, sphere.onSurface_smaller_root s r hD hdet, fun u hu hon => ?_⟩
  exact absurd (sphere.smaller_root_le s r hD u hon).2 (not_le.mpr hu)

/-- A point is on the surface of a sphere of radius zero exactly when it is the center. -/
theorem sphere.onSurface_zero_radius (s : sphere ℝ) (p : vec3 ℝ) (hr : s.radius = 0) :
    s.onSurface p ↔ p = s.center := by
  rcases p with ⟨px, py, pz⟩
  rcases s with ⟨⟨cx, cy, cz⟩, r⟩
  simp only at hr
  subst hr
  simp only [sphere.onSurface, vec3.dot, vec3.sub, mul_zero, vec3.mk.injEq]
  constructor
  · intro h
    refine ⟨?_, ?_, ?_⟩ <;>
      nlinarith [mul_self_nonneg (px - cx), mul_self_nonneg (py - cy),
        mul_self_nonneg (pz - cz)]
  · rintro ⟨rfl, rfl, rfl⟩
    ring

/-- With exact arithmetic, radius `0` and a direction of unit length, `det <= 0`, and
`rayIntersect` returns `true` exactly when the center is on the line of the ray, and then reports
the center. -/
theorem sphere.zero_radius_real (s : sphere ℝ) (a : ray ℝ) (hit : vec3 ℝ)
    (hr : s.radius = 0) (hD : a.direction.dot a.direction = 1) :
    s.det a ≤ 0 ∧
    (s.rayIntersect Real.sqrt a hit = (false, hit) ∨
      s.rayIntersect Real.sqrt a hit = (true, a.pointAtDist (-s.coefB a))) ∧
    ((s.rayIntersect Real.sqrt a hit).1 = true ↔
      ∃ t : ℝ, a.origin.add (vec3.smul t a.direction) = s.center) ∧
    ((s.rayIntersect Real.sqrt a hit).1 = true →
      (s.rayIntersect Real.sqrt a hit).2 = s.center) ∧
    (sphere.ctor₀ : sphere ℝ).radius = 0 := by
  have hD' : a.direction.x * a.direction.x + a.direction.y * a.direction.y
      + a.direction.z * a.direction.z = 1 := hD
  have hdet : s.det a ≤ 0 := by
    have key : s.det a = -(
        (a.direction.y * (a.origin.z - s.center.z) - a.direction.z * (a.origin.y - s.center.y))
          ^ 2
        + (a.direction.x * (a.origin.z - s.center.z)
          - a.direction.z * (a.origin.x - s.center.x)) ^ 2
        + (a.direction.x * (a.origin.y - s.center.y)
          - a.direction.y * (a.origin.x - s.center.x)) ^ 2) := by
      simp only [sphere.det, sphere.coefB, sphere.coefC, vec3.dot, vec3.sub, hr]
      linear_combination
        ((a.origin.x - s.center.x) ^ 2 + (a.origin.y - s.center.y) ^ 2
          + (a.origin.z - s.center.z) ^ 2) * hD'
    rw [key]
    have := sq_nonneg
      (a.direction.y * (a.origin.z - s.center.z) - a.direction.z * (a.origin.y - s.center.y))
    have := sq_nonneg
      (a.direction.x * (a.origin.z - s.center.z) - a.direction.z * (a.origin.x - s.center.x))
    have := sq_nonneg
      (a.direction.x * (a.origin.y - s.center.y) - a.direction.y * (a.origin.x - s.center.x))
    linarith
  have hhit : (s.rayIntersect Real.sqrt a hit).1 = true →
      (s.rayIntersect Real.sqrt a hit).2 = s.center := by
    intro hret
    have hd := (sphere.rayIntersect_fst_iff s a hit).mp hret
    rw [sphere.rayIntersect_of_det_nonneg s a hit hd]
    exact (sphere.onSurface_zero_radius s _ hr).mp (sphere.onSurface_smaller_root s a hD hd)
  refine ⟨hdet, ?_, ?_, hhit, rfl⟩
  · rcases hdet.lt_or_eq with h | h
    · exact Or.inl (sphere.rayIntersect_of_det_neg s a hit h)
    · exact Or.inr (sphere.rayIntersect_of_det_zero s a hit h)
  · simp only [ray.origin_add_smul]
    constructor
    · intro hret
      have hd := (sphere.rayIntersect_fst_iff s a hit).mp hret
      exact ⟨_, (sphere.onSurface_zero_radius s _ hr).mp
        (sphere.onSurface_smaller_root s a hD hd)⟩
    · rintro ⟨t, ht⟩
      rw [sphere.rayIntersect_fst_iff]
      exact (sphere.smaller_root_le s a hD t
        ((sphere.onSurface_zero_radius s _ hr).mpr ht)).1

/-- With exact arithmetic, `pointAtDist(t)` is `origin + t * direction`, and for a direction of unit
length `t` is the signed distance from the origin along the direction. -/
theorem ray.pointAtDist_real (r : ray ℝ) (t : ℝ) :
    r.pointAtDist t = r.origin.add (vec3.smul t r.direction) ∧
    r.pointAtDist 0 = r.origin ∧
    (r.direction.dot r.direction = 1 →
      ((r.pointAtDist t).sub r.origin).dot r.direction = t ∧
      ((r.pointAtDist t).sub r.origin).length Real.sqrt = |t|) := by
  refine ⟨(ray.origin_add_smul r t).symm, ?_, fun hD => ⟨?_, ?_⟩⟩
  · simp only [ray.pointAtDist_eq, mul_zero, zero_add]
  · have hD' : r.direction.x * r.direction.x + r.direction.y * r.direction.y
        + r.direction.z * r.direction.z = 1 := hD
    simp only [ray.pointAtDist_eq, vec3.dot, vec3.sub]
    linear_combination t * hD'
  · have hD' : r.direction.x * r.direction.x + r.direction.y * r.direction.y
        + r.direction.z * r.direction.z = 1 := hD
    have hsq : (r.direction.x * t + r.origin.x - r.origin.x)
          * (r.direction.x * t + r.origin.x - r.origin.x)
        + (r.direction.y * t + r.origin.y - r.origin.y)
          * (r.direction.y * t + r.origin.y - r.origin.y)
        + (r.direction.z * t + r.origin.z - r.origin.z)
          * (r.direction.z * t + r.origin.z - r.origin.z) = t * t := by
      linear_combination (t * t) * hD'
    simp only [ray.pointAtDist_eq, vec3.length, vec3.sub]
    rw [hsq, Real.sqrt_mul_self_eq_abs]

/-! ## Facts about the `float` operations -/

namespace F32

theorem lt_iff (x y : F32) : x < y ↔ lt x y = true := Iff.rfl

theorem le_iff (x y : F32) : x ≤ y ↔ le x y = true := Iff.rfl

theorem zero_eq : (0 : F32) = fin 0 := rfl

theorem add_eq (x y : F32) : x + y = add x y := rfl

theorem sub_eq (x y : F32) : x - y = add x (neg y) := rfl

theorem mul_eq (x y : F32) : x * y = mul x y := rfl

theorem div_eq (x y : F32) : x / y = div x y := rfl

theorem neg_eq (x : F32) : -x = neg x := rfl

/-- The test `x < 0` fails exactly when `x` is at least zero or is not a number. -/
theorem not_lt_zero_iff (x : F32) : ¬ x < 0 ↔ (0 ≤ x ∨ x = nan) := by
  cases x with
  | nan => simp [lt_iff, le_iff, zero_eq, lt, le]
  | inf s => cases s <;> simp [lt_iff, le_iff, zero_eq, lt, le]
  | fin n => simp [lt_iff, le_iff, zero_eq, lt, le]

/-- A value above zero is neither below zero nor zero. -/
theorem not_lt_of_pos (x : F32) (h : 0 < x) : ¬ x < 0 ∧ x ≠ 0 := by
  cases x with
  | nan => simp [lt_iff, zero_eq, lt] at h
  | inf s => cases s <;> simp [lt_iff, zero_eq, lt] at h ⊢
  | fin n =>
    simp only [lt_iff, zero_eq, lt, decide_eq_true_eq] at h ⊢
    constructor
    · omega
    · intro h0
      injection h0 with h0
      omega

/-- A value that is neither below zero, nor zero, nor above zero is not a number. -/
theorem eq_nan_of_not_lt (x : F32) (h1 : ¬ x < 0) (h2 : x ≠ 0) (h3 : ¬ 0 < x) : x = nan := by
  cases x with
  | nan => rfl
  | inf s => cases s <;> simp [lt_iff, zero_eq, lt] at h1 h3
  | fin n =>
    simp only [lt_iff, zero_eq, lt, decide_eq_true_eq] at h1 h3
    exact absurd (by rw [zero_eq]; congr 1; omega) h2

/-- Numbers are totally ordered: when `y < x` fails, `x <= y` holds. -/
theorem le_of_not_lt (x y : F32) (hx : x ≠ nan) (hy : y ≠ nan) (h : ¬ y < x) : x ≤ y := by
  cases x with
  | nan => exact absurd rfl hx
  | inf s =>
    cases y with
    | nan => exact absurd rfl hy
    | inf t => cases s <;> cases t <;> simp [lt_iff, le_iff, lt, le] at h ⊢
    | fin b => cases s <;> simp [lt_iff, le_iff, lt, le] at h ⊢
  | fin a =>
    cases y with
    | nan => exact absurd rfl hy
    | inf t => cases t <;> simp [lt_iff, le_iff, lt, le] at h ⊢
    | fin b => simpa [lt_iff, le_iff, lt, le] using h

/-- A number is at most itself. -/
theorem le_refl (x : F32) (hx : x ≠ nan) : x ≤ x := by
  cases x with
  | nan => exact absurd rfl hx
  | inf s => cases s <;> simp [le_iff, le]
  | fin a => simp [le_iff, le]

/-- The comparison `<` implies `<=`. -/
theorem le_of_lt (x y : F32) (h : x < y) : x ≤ y := by
  cases x with
  | nan => simp [lt_iff, lt] at h
  | inf s =>
    cases y with
    | nan => cases s <;> simp [lt_iff, lt] at h
    | inf t => cases s <;> cases t <;> simp [lt_iff, le_iff, lt, le] at h ⊢
    | fin b => cases s <;> simp [lt_iff, le_iff, lt, le] at h ⊢
  | fin a =>
    cases y with
    | nan => simp [lt_iff, lt] at h
    | inf t => cases t <;> simp [lt_iff, le_iff, lt, le] at h ⊢
    | fin b =>
      simp only [lt_iff, le_iff, lt, le, decide_eq_true_eq] at h ⊢
      omega

/-- No value is below itself. -/
theorem lt_irrefl (x : F32) : ¬ x < x := by
  cases x with
  | nan => simp [lt_iff, lt]
  | inf s => cases s <;> simp [lt_iff, lt]
  | fin a => simp [lt_iff, lt]

/-- Something that compares below or above another value is a number. -/
theorem ne_nan_of_lt (x y : F32) (h : x < y) : x ≠ nan ∧ y ≠ nan := by
  cases x <;> cases y <;> simp [lt_iff, lt] at h ⊢

/-- Addition is commutative. -/
theorem add_comm (x y : F32) : x + y = y + x := by
  cases x with
  | nan => cases y <;> rfl
  | inf s =>
    cases y with
    | nan => rfl
    | inf t => cases s <;> cases t <;> rfl
    | fin b => rfl
  | fin a =>
    cases y with
    | nan => rfl
    | inf t => rfl
    | fin b =>
      show add (fin a) (fin b) = add (fin b) (fin a)
      simp only [add, Int.add_comm]

/-- Multiplication is commutative. -/
theorem mul_comm (x y : F32) : x * y = y * x := by
  cases x with
  | nan => cases y <;> rfl
  | inf s =>
    cases y with
    | nan => rfl
    | inf t => cases s <;> cases t <;> rfl
    | fin b => show mul _ _ = mul _ _; simp only [mul, Bool.xor_comm]
  | fin a =>
    cases y with
    | nan => rfl
    | inf t => show mul _ _ = mul _ _; simp only [mul, Bool.xor_comm]
    | fin b =>
      show mul (fin a) (fin b) = mul (fin b) (fin a)
      simp only [mul, Int.mul_comm]

end F32

namespace F32

theorem bitlenAux_zero (fuel : ℕ) : bitlenAux fuel 0 = 0 := by
  cases fuel <;> simp [bitlenAux]

theorem bitlenAux_spec (fuel a : ℕ) (h : a ≤ fuel) :
    a < 2 ^ bitlenAux fuel a ∧ (a ≠ 0 → 2 ^ (bitlenAux fuel a - 1) ≤ a) := by
  induction fuel generalizing a with
  | zero =>
    have h0 : a = 0 := by omega
    subst h0
    simp [bitlenAux]
  | succ fuel ih =>
    by_cases ha : a = 0
    · subst ha
      simp [bitlenAux]
    · have hle : a / 2 ≤ fuel := by omega
      obtain ⟨h1, h2⟩ := ih (a / 2) hle
      simp only [bitlenAux, if_neg ha, Nat.add_sub_cancel]
      constructor
      · rw [pow_succ]
        omega
      · intro _
        by_cases hz : a / 2 = 0
        · have h1a : a = 1 := by omega
          subst h1a
          simp [bitlenAux_zero]
        · have h3 := h2 hz
          have hk : 1 ≤ bitlenAux fuel (a / 2) := by
            by_contra hk
            have hk0 : bitlenAux fuel (a / 2) = 0 := by omega
            rw [hk0] at h1
            simp at h1
            exact hz h1
          obtain ⟨k, hk'⟩ : ∃ k, bitlenAux fuel (a / 2) = k + 1 := ⟨_, (Nat.sub_add_cancel hk).symm⟩
          rw [hk'] at h3 ⊢
          simp only [Nat.add_sub_cancel] at h3
          rw [pow_succ]
          omega

/-- A number is below two to the power of its number of binary digits. -/
theorem lt_two_pow_bitlen (a : ℕ) : a < 2 ^ bitlen a :=
  (bitlenAux_spec a a (Nat.le_refl a)).1

/-- A number below `2^j` has at most `j` binary digits. -/
theorem bitlen_le_of_lt (m j : ℕ) (h : m < 2 ^ j) : bitlen m ≤ j := by
  by_cases hm : m = 0
  · subst hm
    have : bitlen 0 = 0 := rfl
    omega
  · have h2 := (bitlenAux_spec m m (Nat.le_refl m)).2 hm
    have h3 : 2 ^ (bitlen m - 1) < 2 ^ j := lt_of_le_of_lt h2 h
    have h4 := (Nat.pow_lt_pow_iff_right (by norm_num : 1 < 2)).mp h3
    omega

theorem rne_of_dvd (num den : ℕ) (hd : 0 < den) (h : den ∣ num) : rne num den = num / den := by
  have h0 : num % den = 0 := Nat.mod_eq_zero_of_dvd h
  simp only [rne, h0, Nat.mul_zero, if_pos hd]

theorem rne_le (num den : ℕ) : rne num den ≤ num / den + 1 := by
  simp only [rne]
  split
  · omega
  · split
    · omega
    · split <;> omega

theorem le_rne (num den : ℕ) : num / den ≤ rne num den := by
  simp only [rne]
  split
  · omega
  · split
    · omega
    · split <;> omega

/-- A magnitude that has at most 24 significant digits is its own rounding. -/
theorem roundMag_self (a : ℕ) (h : 2 ^ shift a ∣ a) : roundMag a 1 = a := by
  simp only [roundMag, Nat.div_one, Nat.one_mul]
  rw [rne_of_dvd a _ (by positivity) h, Nat.mul_div_cancel' h]

/-- The integer part of the quotient, shifted, is below `2^24`. -/
theorem div_shift_lt (a : ℕ) : a / 2 ^ shift a < 2 ^ 24 := by
  have h := lt_two_pow_bitlen a
  rw [Nat.div_lt_iff_lt_mul (by positivity), ← pow_add]
  refine lt_of_lt_of_le h (Nat.pow_le_pow_right (by norm_num) ?_)
  simp only [shift]
  omega

/-- The result of rounding a magnitude has at most 24 significant digits. -/
theorem roundMag_dvd (num den : ℕ) :
    2 ^ shift (roundMag num den) ∣ roundMag num den := by
  simp only [roundMag]
  set s := shift (num / den) with hs
  set k := rne num (den * 2 ^ s) with hk
  have hq : num / (den * 2 ^ s) = num / den / 2 ^ s := (Nat.div_div_eq_div_mul _ _ _).symm
  have hk24 : k ≤ 2 ^ 24 := by
    have h1 := rne_le num (den * 2 ^ s)
    have h2 : num / den / 2 ^ s < 2 ^ 24 := div_shift_lt (num / den)
    rw [← hk, hq] at h1
    omega
  rcases Nat.lt_or_ge k (2 ^ 24) with hlt | hge
  · have hm : 2 ^ s * k < 2 ^ (s + 24) := by
      rw [pow_add]
      exact Nat.mul_lt_mul_of_pos_left hlt (by positivity)
    have hb := bitlen_le_of_lt _ _ hm
    have hsh : shift (2 ^ s * k) ≤ s := by simp only [shift]; omega
    exact Dvd.dvd.mul_right (Nat.pow_dvd_pow 2 hsh) k
  · have hk' : k = 2 ^ 24 := le_antisymm hk24 hge
    rw [hk', ← pow_add]
    have hm : 2 ^ (s + 24) < 2 ^ (s + 25) := Nat.pow_lt_pow_right (by norm_num) (by omega)
    have hb := bitlen_le_of_lt _ _ hm
    exact Nat.pow_dvd_pow 2 (by simp only [shift]; omega)

/-- Every result of rounding is a binary32 value. -/
theorem round_valid (s : Bool) (num den : ℕ) : Valid (round s num den) := by
  simp only [round]
  split
  · trivial
  · rename_i h
    have hd := roundMag_dvd num den
    cases s
    · simp only [Valid, Bool.false_eq_true, if_false, Int.natAbs_ofNat]
      exact ⟨not_le.mp h, hd⟩
    · simp only [Valid, if_true, Int.natAbs_neg, Int.natAbs_ofNat]
      exact ⟨not_le.mp h, hd⟩

/-- A binary32 value is its own rounding. -/
theorem round_self (n : ℤ) (h : Valid (fin n)) : round (decide (n < 0)) n.natAbs 1 = fin n := by
  obtain ⟨h1, h2⟩ := h
  simp only [round, roundMag_self _ h2, if_neg (not_le.mpr h1)]
  congr 1
  by_cases hn : n < 0
  · simp only [hn, decide_True, if_true]
    omega
  · simp only [hn, decide_False, Bool.false_eq_true, if_false]
    omega

/-- Rounding commutes with the change of sign. -/
theorem neg_round (s : Bool) (num den : ℕ) : neg (round s num den) = round (!s) num den := by
  simp only [round]
  split
  · rfl
  · cases s <;> simp [neg]

end F32

namespace F32

/-- Rounding zero gives zero, whatever the sign. -/
theorem round_zero (s : Bool) (den : ℕ) (hd : 0 < den) : round s 0 den = fin 0 := by
  have h0 : roundMag 0 den = 0 := by
    have hs : shift 0 = 0 := rfl
    simp only [roundMag, Nat.zero_div, hs, pow_zero, Nat.mul_one, Nat.one_mul, rne,
      Nat.zero_mod, Nat.mul_zero, if_pos hd]
  simp only [round, h0]
  cases s <;> simp

/-- Sums are binary32 values. -/
theorem add_valid (x y : F32) : Valid (x + y) := by
  cases x with
  | nan => cases y <;> trivial
  | inf s =>
    cases y with
    | nan => trivial
    | inf t => show Valid (add _ _); simp only [add]; split <;> trivial
    | fin b => trivial
  | fin a =>
    cases y with
    | nan => trivial
    | inf t => trivial
    | fin b => exact round_valid _ _ _

/-- Differences are binary32 values. -/
theorem sub_valid (x y : F32) : Valid (x - y) := add_valid x (neg y)

/-- Products are binary32 values. -/
theorem mul_valid (x y : F32) : Valid (x * y) := by
  cases x with
  | nan => cases y <;> trivial
  | inf s =>
    cases y with
    | nan => trivial
    | inf t => trivial
    | fin b => show Valid (mul _ _); simp only [mul]; split <;> trivial
  | fin a =>
    cases y with
    | nan => trivial
    | inf t => show Valid (mul _ _); simp only [mul]; split <;> trivial
    | fin b => exact round_valid _ _ _

/-- Adding zero to a binary32 value changes nothing. -/
theorem add_zero (x : F32) (h : Valid x) : x + 0 = x := by
  cases x with
  | nan => rfl
  | inf s => rfl
  | fin n =>
    show add (fin n) (fin 0) = fin n
    simp only [add, Int.add_zero]
    exact round_self n h

/-- Adding a binary32 value to zero gives that value. -/
theorem zero_add (x : F32) (h : Valid x) : 0 + x = x := by
  rw [add_comm, add_zero x h]

/-- Subtracting zero from a binary32 value changes nothing. -/
theorem sub_zero (x : F32) (h : Valid x) : x - 0 = x := add_zero x h

/-- A finite value times zero is zero. -/
theorem fin_mul_zero (n : ℤ) : fin n * 0 = 0 := by
  show mul (fin n) (fin 0) = fin 0
  simp only [mul, Int.mul_zero, Int.natAbs_zero]
  exact round_zero _ _ (by positivity)

/-- Zero times a finite value is zero. -/
theorem zero_mul_fin (n : ℤ) : 0 * fin n = 0 := by
  rw [mul_comm, fin_mul_zero]

/-- A finite value minus itself is zero. -/
theorem fin_sub_self (n : ℤ) : fin n - fin n = 0 := by
  show add (fin n) (neg (fin n)) = fin 0
  simp only [neg, add, Int.add_right_neg, Int.natAbs_zero]
  exact round_zero _ _ (by norm_num)

theorem natAbs_two_pow (j : ℕ) : ((2 : ℤ) ^ j).natAbs = 2 ^ j := by
  rw [Int.natAbs_pow]
  rfl

/-- The `float` of an integer below `2^24` in magnitude is that integer. -/
theorem ofInt_eq (k : ℤ) (h : k.natAbs < 2 ^ 24) : ofInt k = fin (k * 2 ^ 149) := by
  have hv : Valid (fin (k * 2 ^ 149)) := by
    have habs : (k * 2 ^ 149).natAbs = k.natAbs * 2 ^ 149 := by
      rw [Int.natAbs_mul, natAbs_two_pow]
    constructor
    · rw [habs]
      calc k.natAbs * 2 ^ 149 < 2 ^ 24 * 2 ^ 149 :=
            Nat.mul_lt_mul_of_pos_right h (by positivity)
        _ ≤ 2 ^ 128 * 2 ^ 149 :=
            Nat.mul_le_mul_right _ (Nat.pow_le_pow_right (by norm_num) (by norm_num))
    · rw [habs]
      have hlt : k.natAbs * 2 ^ 149 < 2 ^ (24 + 149) := by
        rw [pow_add]
        exact Nat.mul_lt_mul_of_pos_right h (by positivity)
      have hb := bitlen_le_of_lt _ _ hlt
      have hs : shift (k.natAbs * 2 ^ 149) ≤ 149 := by simp only [shift]; omega
      exact Dvd.dvd.mul_left (Nat.pow_dvd_pow 2 hs) _
  have hr := round_self _ hv
  have hsign : decide (k * 2 ^ 149 < 0) = decide (k < 0) := by
    congr 1
    apply propext
    constructor
    · intro h1
      by_contra h2
      have : 0 ≤ k * 2 ^ 149 := Int.mul_nonneg (not_lt.mp h2) (by positivity)
      omega
    · intro h1
      exact Int.mul_neg_of_neg_of_pos h1 (by positivity)
  have hnat : (k * 2 ^ 149).natAbs = k.natAbs * 2 ^ (0 + 149 : ℤ).toNat := by
    rw [Int.natAbs_mul, natAbs_two_pow]
    rfl
  simp only [ofInt, lit]
  rw [if_pos (by norm_num), ← hnat, ← hsign]
  exact hr

/-- The exact value of the `float` of an integer below `2^24` in magnitude. -/
theorem toRat_ofInt (k : ℤ) (h : k.natAbs < 2 ^ 24) : (ofInt k).toRat = k := by
  rw [ofInt_eq k h]
  simp only [toRat, Int.cast_mul, Int.cast_pow, Int.cast_ofNat]
  rw [mul_div_assoc, div_self (pow_ne_zero _ two_ne_zero), mul_one]

/-- A square root is not a number or is at least zero. -/
theorem sqrt_nonneg (x : F32) : sqrt x = nan ∨ 0 ≤ sqrt x := by
  cases x with
  | nan => exact Or.inl rfl
  | inf s => cases s <;> simp [sqrt, le_iff, zero_eq, le]
  | fin n =>
    by_cases hn : n < 0
    · left
      simp only [sqrt, if_pos hn]
    · right
      simp only [sqrt, if_neg hn, le_iff, zero_eq, le, decide_eq_true_eq]
      positivity

end F32

/-! ## Normalisation and construction never fail -/

/-- The value of `normalized()`: the quotient when the length is above zero, the zero vector
otherwise; the assertion of the division holds. -/
theorem vec3.normalized_eq (sqrt : F32 → F32) (v : vec3 F32) :
    (0 < v.length sqrt →
      v.normalized sqrt = some ⟨v.x / v.length sqrt, v.y / v.length sqrt, v.z / v.length sqrt⟩ ∧
      v.div (v.length sqrt)
        = some ⟨v.x / v.length sqrt, v.y / v.length sqrt, v.z / v.length sqrt⟩) ∧
    (¬ 0 < v.length sqrt → v.normalized sqrt = some vec3.ctor₀) := by
  constructor
  · intro h
    have hne : v.length sqrt ≠ 0 := (F32.not_lt_of_pos _ h).2
    simp only [vec3.normalized, vec3.div, gt_iff_lt, if_pos h, if_pos hne, and_self]
  · intro h
    simp only [vec3.normalized, gt_iff_lt, if_neg h]

/-- The method `normalized()` always returns a value. -/
theorem vec3.normalized_some (sqrt : F32 → F32) (v : vec3 F32) :
    ∃ n, v.normalized sqrt = some n := by
  by_cases h : 0 < v.length sqrt
  · exact ⟨_, ((vec3.normalized_eq sqrt v).1 h).1⟩
  · exact ⟨_, (vec3.normalized_eq sqrt v).2 h⟩

/-- The two-argument constructor stores the origin and the normalised direction. -/
theorem ray.ctor_eq (sqrt : F32 → F32) (o d n : vec3 F32) (h : d.normalized sqrt = some n) :
    ray.ctor sqrt o d = some ⟨o, n⟩ := by
  simp only [ray.ctor, vec3.normalize, h, Option.map_some']

/-- The point at `t` is the origin plus `t` times the direction, in either operand order. -/
theorem ray.pointAtDist_comm (r : ray F32) (t : F32) :
    r.pointAtDist t = r.origin.add (vec3.smul t r.direction) := by
  simp only [ray.pointAtDist_eq, vec3.add, vec3.smul, vec3.mul, F32.add_comm]

/-- A dot product is a binary32 value. -/
theorem vec3.dot_valid (u v : vec3 F32) : F32.Valid (u.dot v) := F32.add_valid _ _

/-- The exact components of the vector of three integers below `2^24` in magnitude. -/
theorem vec3.toReal_ofInts (x y z : ℤ) (hx : x.natAbs < 2 ^ 24) (hy : y.natAbs < 2 ^ 24)
    (hz : z.natAbs < 2 ^ 24) : (vec3.ofInts x y z).toReal = ⟨(x : ℝ), (y : ℝ), (z : ℝ)⟩ := by
  simp only [vec3.toReal, vec3.ofInts, F32.toRat_ofInt x hx, F32.toRat_ofInt y hy,
    F32.toRat_ofInt z hz, Rat.cast_intCast]

/-! ## Signs, opposites and exact operations -/

/-- The opposite of a binary32 value is one. -/
theorem F32.neg_valid (x : F32) (h : F32.Valid x) : F32.Valid (-x) := by
  cases x with
  | nan => trivial
  | inf s => trivial
  | fin n =>
    show F32.Valid (F32.fin (-n))
    simpa only [F32.Valid, Int.natAbs_neg] using h

/-- Scaling by `2^149` keeps the sign. -/
theorem F32.mul_two_pow_neg_iff (m : ℤ) : m * 2 ^ 149 < 0 ↔ m < 0 := by
  constructor
  · intro h1
    by_contra h2
    have : 0 ≤ m * 2 ^ 149 := Int.mul_nonneg (not_lt.mp h2) (by positivity)
    omega
  · intro h1
    exact Int.mul_neg_of_neg_of_pos h1 (by positivity)

/-- Multiplying a binary32 value by `-1` changes its sign. -/
theorem F32.mul_neg_one (x : F32) (h : F32.Valid x) : x * F32.ofInt (-1) = -x := by
  have h1 : F32.ofInt (-1) = F32.fin (-1 * 2 ^ 149) := F32.ofInt_eq (-1) (by decide)
  rw [h1]
  cases x with
  | nan => rfl
  | inf s =>
    show F32.mul (F32.inf s) (F32.fin (-1 * 2 ^ 149)) = F32.inf (!s)
    have hne : (-1 * 2 ^ 149 : ℤ) ≠ 0 := by positivity
    have hlt : (-1 * 2 ^ 149 : ℤ) < 0 := by norm_num
    simp only [F32.mul, if_neg hne, hlt, decide_True, Bool.xor_true]
  | fin n =>
    show F32.mul (F32.fin n) (F32.fin (-1 * 2 ^ 149)) = F32.fin (-n)
    have hv := F32.neg_valid _ h
    have hr := F32.round_self (-n) hv
    have hmul : n * (-1 * 2 ^ 149) = -n * 2 ^ 149 := by ring
    have hnat : (-n * 2 ^ 149).natAbs = (-n).natAbs * 2 ^ 149 := by
      rw [Int.natAbs_mul, F32.natAbs_two_pow]
    have hsign : decide (-n * 2 ^ 149 < 0) = decide (-n < 0) :=
      decide_eq_decide.mpr (F32.mul_two_pow_neg_iff (-n))
    simp only [F32.mul, hmul, hnat, hsign]
    rw [← hr]
    simp only [F32.round, F32.roundMag]
    have hq : ∀ a : ℕ, a * 2 ^ 149 / 2 ^ 149 = a / 1 := fun a => by
      rw [Nat.mul_div_cancel _ (by positivity), Nat.div_one]
    have hrne : ∀ a d : ℕ, F32.rne (a * 2 ^ 149) (2 ^ 149 * d) = F32.rne a (1 * d) := by
      intro a d
      simp only [F32.rne, Nat.one_mul]
      rw [Nat.mul_comm a, Nat.mul_div_mul_left _ _ (by positivity : 0 < 2 ^ 149),
        Nat.mul_mod_mul_left]
      have h2 : ∀ r : ℕ, (2 * (2 ^ 149 * r) < 2 ^ 149 * d ↔ 2 * r < d) := by
        intro r
        rw [show 2 * (2 ^ 149 * r) = 2 ^ 149 * (2 * r) by ring]
        exact Nat.mul_lt_mul_left (by positivity)
      have h3 : ∀ r : ℕ, (2 ^ 149 * d < 2 * (2 ^ 149 * r) ↔ d < 2 * r) := by
        intro r
        rw [show 2 * (2 ^ 149 * r) = 2 ^ 149 * (2 * r) by ring]
        exact Nat.mul_lt_mul_left (by positivity)
      simp only [h2, h3]
    rw [hq, hrne]

/-- A rounding with the positive sign is at least zero. -/
theorem F32.round_false_nonneg (num den : ℕ) : 0 ≤ F32.round false num den := by
  simp only [F32.round]
  split
  · simp [F32.le_iff, F32.zero_eq, F32.le]
  · simp [F32.le_iff, F32.zero_eq, F32.le]

/-- A rounding with the negative sign is at most zero. -/
theorem F32.round_true_nonpos (num den : ℕ) : F32.round true num den ≤ 0 := by
  simp only [F32.round]
  split
  · simp [F32.le_iff, F32.zero_eq, F32.le]
  · simp [F32.le_iff, F32.zero_eq, F32.le]

/-- A square is not a number or is at least zero. -/
theorem F32.square_nonneg (x : F32) : x * x = F32.nan ∨ 0 ≤ x * x := by
  cases x with
  | nan => exact Or.inl rfl
  | inf s => right; cases s <;> simp [F32.mul_eq, F32.mul, F32.le_iff, F32.zero_eq, F32.le]
  | fin a =>
    right
    have h : decide (a * a < 0) = false := decide_eq_false (not_lt.mpr (mul_self_nonneg a))
    show 0 ≤ F32.mul (F32.fin a) (F32.fin a)
    simp only [F32.mul, h]
    exact F32.round_false_nonneg _ _

/-- The difference of a value and a larger one is at most zero. -/
theorem F32.sub_nonpos_of_lt (x y : F32) (h : x < y) : x - y ≤ 0 := by
  cases x with
  | nan => simp [F32.lt_iff, F32.lt] at h
  | inf s =>
    cases y with
    | nan => cases s <;> simp [F32.lt_iff, F32.lt] at h
    | inf t =>
      cases s <;> cases t <;> simp [F32.lt_iff, F32.lt] at h
      simp [F32.sub_eq, F32.neg, F32.add, F32.le_iff, F32.zero_eq, F32.le]
    | fin b =>
      cases s <;> simp [F32.lt_iff, F32.lt] at h
      simp [F32.sub_eq, F32.neg, F32.add, F32.le_iff, F32.zero_eq, F32.le]
  | fin a =>
    cases y with
    | nan => simp [F32.lt_iff, F32.lt] at h
    | inf t =>
      cases t <;> simp [F32.lt_iff, F32.lt] at h
      simp [F32.sub_eq, F32.neg, F32.add, F32.le_iff, F32.zero_eq, F32.le]
    | fin b =>
      simp only [F32.lt_iff, F32.lt, decide_eq_true_eq] at h
      have hs : decide (a + -b < 0) = true := decide_eq_true (by omega)
      show F32.add (F32.fin a) (F32.neg (F32.fin b)) ≤ 0
      simp only [F32.neg, F32.add, hs]
      exact F32.round_true_nonpos _ _

/-- Subtracting a value that is at most zero from one that is at least zero, or is not a
number, never gives a value below zero. -/
theorem F32.not_sub_lt_zero (x y : F32) (hx : x = F32.nan ∨ 0 ≤ x) (hy : y ≤ 0) :
    ¬ x - y < 0 := by
  cases x with
  | nan => cases y <;> simp [F32.sub_eq, F32.neg, F32.add, F32.lt_iff, F32.lt]
  | inf s =>
    cases s
    · cases y with
      | nan => simp [F32.le_iff, F32.le] at hy
      | inf t =>
        cases t
        · simp [F32.le_iff, F32.zero_eq, F32.le] at hy
        · simp [F32.sub_eq, F32.neg, F32.add, F32.lt_iff, F32.zero_eq, F32.lt]
      | fin b => simp [F32.sub_eq, F32.neg, F32.add, F32.lt_iff, F32.zero_eq, F32.lt]
    · rcases hx with hx | hx
      · exact absurd hx (by simp)
      · simp [F32.le_iff, F32.zero_eq, F32.le] at hx
  | fin a =>
    have ha : 0 ≤ a := by
      rcases hx with hx | hx
      · exact absurd hx (by simp)
      · simpa [F32.le_iff, F32.zero_eq, F32.le] using hx
    cases y with
    | nan => simp [F32.le_iff, F32.le] at hy
    | inf t =>
      cases t
      · simp [F32.le_iff, F32.zero_eq, F32.le] at hy
      · simp [F32.sub_eq, F32.neg, F32.add, F32.lt_iff, F32.zero_eq, F32.lt]
    | fin b =>
      have hb : b ≤ 0 := by simpa [F32.le_iff, F32.zero_eq, F32.le] using hy
      have hs : decide (a + -b < 0) = false := decide_eq_false (by omega)
      show ¬ F32.add (F32.fin a) (F32.neg (F32.fin b)) < 0
      simp only [F32.neg, F32.add, hs]
      have h0 := F32.round_false_nonneg (a + -b).natAbs 1
      intro hlt
      have hne := F32.ne_nan_of_lt _ _ hlt
      exact ((F32.not_lt_zero_iff _).mpr (Or.inl h0)) hlt

/-- The opposite of a difference is the difference the other way round. -/
theorem F32.neg_sub (x y : F32) : -(x - y) = y - x := by
  cases x with
  | nan => cases y <;> rfl
  | inf s =>
    cases y with
    | nan => rfl
    | inf t => cases s <;> cases t <;> rfl
    | fin b => rfl
  | fin a =>
    cases y with
    | nan => rfl
    | inf t => cases t <;> rfl
    | fin b =>
      show F32.neg (F32.round (decide (a + -b < 0)) (a + -b).natAbs 1)
        = F32.round (decide (b + -a < 0)) (b + -a).natAbs 1
      rw [F32.neg_round]
      by_cases hab : a = b
      · subst hab
        simp only [Int.add_right_neg, Int.natAbs_zero]
        rw [F32.round_zero _ _ (by norm_num), F32.round_zero _ _ (by norm_num)]
      · have hnat : (b + -a).natAbs = (a + -b).natAbs := by omega
        have hs : (!decide (a + -b < 0)) = decide (b + -a < 0) := by
          by_cases h : a + -b < 0
          · have h2 : ¬ b + -a < 0 := by omega
            simp [h, h2]
          · have h2 : b + -a < 0 := by omega
            simp [h, h2]
        rw [hnat, hs]

/-- The opposite of the opposite is the value itself. -/
theorem F32.neg_neg (x : F32) : - -x = x := by
  cases x with
  | nan => rfl
  | inf s => show F32.inf (!!s) = F32.inf s; rw [Bool.not_not]
  | fin n => show F32.fin (- -n) = F32.fin n; rw [Int.neg_neg]

/-- The opposite of zero is zero. -/
theorem F32.neg_zero : -(0 : F32) = 0 := rfl

/-- Rounding an integer of magnitude at least one gives a magnitude of at least one. -/
theorem F32.roundMag_pos (n : ℕ) (hn : 0 < n) : 0 < F32.roundMag n 1 := by
  simp only [F32.roundMag, Nat.div_one, Nat.one_mul]
  have h1 := F32.le_rne n (2 ^ F32.shift n)
  have h2 : 2 ^ F32.shift n ≤ n := by
    by_cases hs : F32.shift n = 0
    · rw [hs]
      simpa using hn
    · have h3 := (F32.bitlenAux_spec n n (Nat.le_refl n)).2 (by omega)
      have h4 : F32.shift n ≤ F32.bitlen n - 1 := by simp only [F32.shift]; omega
      exact le_trans (Nat.pow_le_pow_right (by norm_num) h4) h3
  have h5 : 0 < n / 2 ^ F32.shift n := Nat.div_pos h2 (by positivity)
  have h6 : 0 < F32.rne n (2 ^ F32.shift n) := lt_of_lt_of_le h5 h1
  positivity

/-- A difference is above zero exactly when the first operand is above the second. -/
theorem F32.sub_pos_iff (x y : F32) : 0 < x - y ↔ y < x := by
  cases x with
  | nan => cases y <;> simp [F32.sub_eq, F32.neg, F32.add, F32.lt_iff, F32.zero_eq, F32.lt]
  | inf s =>
    cases y with
    | nan => simp [F32.sub_eq, F32.neg, F32.add, F32.lt_iff, F32.zero_eq, F32.lt]
    | inf t =>
      cases s <;> cases t <;>
        simp [F32.sub_eq, F32.neg, F32.add, F32.lt_iff, F32.zero_eq, F32.lt]
    | fin b => cases s <;> simp [F32.sub_eq, F32.neg, F32.add, F32.lt_iff, F32.zero_eq, F32.lt]
  | fin a =>
    cases y with
    | nan => simp [F32.sub_eq, F32.neg, F32.add, F32.lt_iff, F32.zero_eq, F32.lt]
    | inf t => cases t <;> simp [F32.sub_eq, F32.neg, F32.add, F32.lt_iff, F32.zero_eq, F32.lt]
    | fin b =>
      show F32.lt (F32.fin 0) (F32.add (F32.fin a) (F32.neg (F32.fin b))) = true
        ↔ F32.lt (F32.fin b) (F32.fin a) = true
      simp only [F32.neg, F32.add, F32.round]
      by_cases hab : b < a
      · have hs : decide (a + -b < 0) = false := decide_eq_false (by omega)
        have hpos := F32.roundMag_pos (a + -b).natAbs (by omega)
        simp only [hs, Bool.false_eq_true, if_false]
        split
        · simp [F32.lt, hab]
        · simp only [F32.lt, decide_eq_true_eq]
          constructor
          · intro _; exact hab
          · intro _; exact_mod_cast hpos
      · have hle : a ≤ b := not_lt.mp hab
        by_cases heq : a = b
        · subst heq
          have h0 : F32.roundMag 0 1 = 0 := by decide
          simp [F32.lt, h0]
        · have hs : decide (a + -b < 0) = true := decide_eq_true (by omega)
          simp only [hs, if_true]
          split
          · simp [F32.lt, hab]
          · simp only [F32.lt, decide_eq_true_eq]
            constructor
            · intro h
              have : (0 : ℤ) ≤ (F32.roundMag (a + -b).natAbs 1 : ℤ) := Int.natCast_nonneg _
              omega
            · intro h; exact absurd h hab

/-- The opposite of a value is below zero exactly when the value is above zero. -/
theorem F32.neg_lt_zero_iff (x : F32) : -x < 0 ↔ 0 < x := by
  cases x with
  | nan => simp [F32.neg_eq, F32.neg, F32.lt_iff, F32.zero_eq, F32.lt]
  | inf s => cases s <;> simp [F32.neg_eq, F32.neg, F32.lt_iff, F32.zero_eq, F32.lt]
  | fin n => simp [F32.neg_eq, F32.neg, F32.lt_iff, F32.zero_eq, F32.lt]

/-- The sum of two values that are at least zero is at least zero. -/
theorem F32.add_nonneg (x y : F32) (hx : 0 ≤ x) (hy : 0 ≤ y) : 0 ≤ x + y := by
  cases x with
  | nan => simp [F32.le_iff, F32.zero_eq, F32.le] at hx
  | inf s =>
    cases s
    · cases y with
      | nan => simp [F32.le_iff, F32.zero_eq, F32.le] at hy
      | inf t =>
        cases t
        · simp [F32.add_eq, F32.add, F32.le_iff, F32.zero_eq, F32.le]
        · simp [F32.le_iff, F32.zero_eq, F32.le] at hy
      | fin b => simp [F32.add_eq, F32.add, F32.le_iff, F32.zero_eq, F32.le]
    · simp [F32.le_iff, F32.zero_eq, F32.le] at hx
  | fin a =>
    have ha : 0 ≤ a := by simpa [F32.le_iff, F32.zero_eq, F32.le] using hx
    cases y with
    | nan => simp [F32.le_iff, F32.zero_eq, F32.le] at hy
    | inf t =>
      cases t
      · simp [F32.add_eq, F32.add, F32.le_iff, F32.zero_eq, F32.le]
      · simp [F32.le_iff, F32.zero_eq, F32.le] at hy
    | fin b =>
      have hb : 0 ≤ b := by simpa [F32.le_iff, F32.zero_eq, F32.le] using hy
      have hs : decide (a + b < 0) = false := decide_eq_false (by omega)
      show 0 ≤ F32.add (F32.fin a) (F32.fin b)
      simp only [F32.add, hs]
      exact F32.round_false_nonneg _ _

/-- The square of a finite value is at least zero. -/
theorem F32.square_fin_nonneg (n : ℤ) : 0 ≤ F32.fin n * F32.fin n := by
  rcases F32.square_nonneg (F32.fin n) with h | h
  · exfalso
    have h' : F32.mul (F32.fin n) (F32.fin n) = F32.nan := h
    simp only [F32.mul, F32.round] at h'
    split at h' <;> exact absurd h' (by simp)
  · exact h

/-- A value that is at most another is not above it. -/
theorem F32.not_lt_of_le (x y : F32) (h : x ≤ y) : ¬ y < x := by
  cases x with
  | nan => simp [F32.le_iff, F32.le] at h
  | inf s =>
    cases y with
    | nan => cases s <;> simp [F32.le_iff, F32.le] at h
    | inf t => cases s <;> cases t <;> simp [F32.le_iff, F32.lt_iff, F32.le, F32.lt] at h ⊢
    | fin b => cases s <;> simp [F32.le_iff, F32.lt_iff, F32.le, F32.lt] at h ⊢
  | fin a =>
    cases y with
    | nan => simp [F32.le_iff, F32.le] at h
    | inf t => cases t <;> simp [F32.le_iff, F32.lt_iff, F32.le, F32.lt] at h ⊢
    | fin b =>
      simp only [F32.le_iff, F32.lt_iff, F32.le, F32.lt, decide_eq_true_eq] at h ⊢
      omega

/-- A value that is at least zero is a number. -/
theorem F32.ne_nan_of_nonneg (x : F32) (h : 0 ≤ x) : x ≠ F32.nan := by
  rintro rfl
  simp [F32.le_iff, F32.zero_eq, F32.le] at h

/-- Subtraction undoes an addition that was exact. -/
theorem F32.add_sub_cancel_of_exact (x y : F32) (hx : F32.Valid x) (h : F32.ExactAdd x y) :
    (x + y) - y = x := by
  cases x with
  | nan => exact absurd h (by simp [F32.ExactAdd])
  | inf s => exact absurd h (by simp [F32.ExactAdd])
  | fin p =>
    cases y with
    | nan => exact absurd h (by simp [F32.ExactAdd])
    | inf t => exact absurd h (by simp [F32.ExactAdd])
    | fin q =>
      have h' : F32.fin p + F32.fin q = F32.fin (p + q) := h
      rw [h']
      show F32.round (decide (p + q + -q < 0)) (p + q + -q).natAbs 1 = F32.fin p
      have hpq : p + q + -q = p := by omega
      rw [hpq]
      exact F32.round_self p hx

/-- Scaling numerator and denominator by the same positive number does not change the nearest
integer. -/
theorem F32.rne_mul_left (k a d : ℕ) (hk : 0 < k) : F32.rne (k * a) (k * d) = F32.rne a d := by
  simp only [F32.rne]
  rw [Nat.mul_div_mul_left _ _ hk, Nat.mul_mod_mul_left]
  have h2 : (2 * (k * (a % d)) < k * d ↔ 2 * (a % d) < d) := by
    rw [show 2 * (k * (a % d)) = k * (2 * (a % d)) by ring]
    exact Nat.mul_lt_mul_left hk
  have h3 : (k * d < 2 * (k * (a % d)) ↔ d < 2 * (a % d)) := by
    rw [show 2 * (k * (a % d)) = k * (2 * (a % d)) by ring]
    exact Nat.mul_lt_mul_left hk
  simp only [h2, h3]

/-- Scaling numerator and denominator by the same positive number does not change the rounded
magnitude. -/
theorem F32.roundMag_mul_left (k a d : ℕ) (hk : 0 < k) :
    F32.roundMag (k * a) (k * d) = F32.roundMag a d := by
  simp only [F32.roundMag]
  rw [Nat.mul_div_mul_left _ _ hk, Nat.mul_assoc, F32.rne_mul_left k _ _ hk]

/-- Division undoes a multiplication that was exact. -/
theorem F32.mul_div_cancel_of_exact (x s : F32) (hs : s ≠ 0) (hx : F32.Valid x)
    (h : F32.ExactMul x s) : (x * s) / s = x := by
  cases x with
  | nan => exact absurd h (by simp [F32.ExactMul])
  | inf t => exact absurd h (by simp [F32.ExactMul])
  | fin p =>
    cases s with
    | nan => exact absurd h (by simp [F32.ExactMul])
    | inf t => exact absurd h (by simp [F32.ExactMul])
    | fin q =>
      obtain ⟨hdvd, hmul⟩ : (2 : ℤ) ^ 149 ∣ p * q ∧
          F32.fin p * F32.fin q = F32.fin (p * q / 2 ^ 149) := h
      have hq : q ≠ 0 := fun h0 => hs (by rw [h0]; rfl)
      rw [hmul]
      obtain ⟨r, hr⟩ := hdvd
      have hr' : p * q / 2 ^ 149 = r := by
        rw [hr, Int.mul_ediv_cancel_left _ (by positivity)]
      rw [hr']
      show F32.div (F32.fin r) (F32.fin q) = F32.fin p
      simp only [F32.div, if_neg hq]
      have hnat : r.natAbs * 2 ^ 149 = q.natAbs * p.natAbs := by
        have h1 : (p * q).natAbs = (2 ^ 149 * r).natAbs := by rw [hr]
        rw [Int.natAbs_mul, Int.natAbs_mul, F32.natAbs_two_pow] at h1
        rw [Nat.mul_comm, ← h1, Nat.mul_comm]
      have hqpos : 0 < q.natAbs := Int.natAbs_pos.mpr hq
      have hmag : F32.roundMag (r.natAbs * 2 ^ 149) q.natAbs = F32.roundMag p.natAbs 1 := by
        rw [hnat]
        have := F32.roundMag_mul_left q.natAbs p.natAbs 1 hqpos
        rwa [Nat.mul_one] at this
      have hself := F32.round_self p hx
      by_cases hp : p = 0
      · subst hp
        have hr0 : r = 0 := by
          have : (2 : ℤ) ^ 149 * r = 0 := by rw [← hr]; simp
          rcases Int.mul_eq_zero.mp this with h1 | h1
          · exact absurd h1 (by positivity)
          · exact h1
        subst hr0
        simp only [Int.natAbs_zero, Nat.zero_mul]
        exact F32.round_zero _ _ hqpos
      · have hsign : xor (decide (r < 0)) (decide (q < 0)) = decide (p < 0) := by
          have hrneg : r < 0 ↔ p * q < 0 := by
            rw [hr, Int.mul_comm]
            exact (F32.mul_two_pow_neg_iff r).symm
          rcases lt_or_gt_of_ne hp with hp' | hp' <;> rcases lt_or_gt_of_ne hq with hq' | hq'
          · have h1 : 0 < p * q := Int.mul_pos_of_neg_of_neg hp' hq'
            have h2 : ¬ r < 0 := fun h => by have := hrneg.mp h; omega
            simp [h2, hq', hp']
          · have h1 : p * q < 0 := Int.mul_neg_of_neg_of_pos hp' hq'
            have h2 : r < 0 := hrneg.mpr h1
            have h3 : ¬ q < 0 := by omega
            simp [h2, h3, hp']
          · have h1 : p * q < 0 := Int.mul_neg_of_pos_of_neg hp' hq'
            have h2 : r < 0 := hrneg.mpr h1
            have h3 : ¬ p < 0 := by omega
            simp [h2, hq', h3]
          · have h1 : 0 < p * q := Int.mul_pos hp' hq'
            have h2 : ¬ r < 0 := fun h => by have := hrneg.mp h; omega
            have h3 : ¬ p < 0 := by omega
            have h4 : ¬ q < 0 := by omega
            simp [h2, h3, h4]
        rw [hsign, ← hself]
        simp only [F32.round, hmag]

/-- A difference times `-1` is the difference the other way round. -/
theorem F32.sub_mul_neg_one (p q : F32) : (q - p) * F32.ofInt (-1) = p - q := by
  rw [F32.mul_neg_one _ (F32.sub_valid q p), F32.neg_sub]

/-- Zero minus a binary32 value is its opposite. -/
theorem F32.zero_sub (x : F32) (h : F32.Valid x) : 0 - x = -x :=
  F32.zero_add _ (F32.neg_valid x h)

/-- The dot product of a vector of finite components with itself is at least zero. -/
theorem vec3.dot_self_nonneg (u : vec3 F32) (hu : u.IsFin) : 0 ≤ u.dot u := by
  obtain ⟨hx, hy, hz⟩ := hu
  rcases u with ⟨x, y, z⟩
  cases x with
  | nan => exact absurd hx (by simp [F32.IsFin])
  | inf s => exact absurd hx (by simp [F32.IsFin])
  | fin p =>
    cases y with
    | nan => exact absurd hy (by simp [F32.IsFin])
    | inf s => exact absurd hy (by simp [F32.IsFin])
    | fin q =>
      cases z with
      | nan => exact absurd hz (by simp [F32.IsFin])
      | inf s => exact absurd hz (by simp [F32.IsFin])
      | fin r =>
        exact F32.add_nonneg _ _
          (F32.add_nonneg _ _ (F32.square_fin_nonneg p) (F32.square_fin_nonneg q))
          (F32.square_fin_nonneg r)

/-- The dot product of the zero vector with a vector of finite components is zero. -/
theorem vec3.zero_dot (u : vec3 F32) (hu : u.IsFin) : (vec3.ctor₀ : vec3 F32).dot u = 0 := by
  obtain ⟨hx, hy, hz⟩ := hu
  rcases u with ⟨x, y, z⟩
  cases x with
  | nan => exact absurd hx (by simp [F32.IsFin])
  | inf s => exact absurd hx (by simp [F32.IsFin])
  | fin p =>
    cases y with
    | nan => exact absurd hy (by simp [F32.IsFin])
    | inf s => exact absurd hy (by simp [F32.IsFin])
    | fin q =>
      cases z with
      | nan => exact absurd hz (by simp [F32.IsFin])
      | inf s => exact absurd hz (by simp [F32.IsFin])
      | fin r =>
        have h1 : ∀ n : ℤ, F32.fin 0 * F32.fin n = F32.fin 0 := F32.zero_mul_fin
        have h2 : F32.fin 0 + F32.fin 0 = F32.fin 0 := by decide
        simp only [vec3.dot, vec3.ctor₀, F32.zero_eq, h1, h2]

/-- On a ray of zero direction every finite parameter gives the origin. -/
theorem ray.pointAtDist_zero_direction (a : ray F32) (hdir : a.direction = vec3.ctor₀)
    (ho : a.origin.Valid) (t : F32) (ht : t.IsFin) : a.pointAtDist t = a.origin := by
  obtain ⟨vx, vy, vz⟩ := ho
  cases t with
  | nan => exact absurd ht (by simp [F32.IsFin])
  | inf s => exact absurd ht (by simp [F32.IsFin])
  | fin n =>
    have h1 : (0 : F32) * F32.fin n = 0 := F32.zero_mul_fin n
    rw [ray.pointAtDist_eq, hdir]
    simp only [vec3.ctor₀, h1, F32.zero_add _ vx, F32.zero_add _ vy, F32.zero_add _ vz]

/-! ## The branches of `rayIntersect` in `float` arithmetic -/

/-- With a negative discriminant `rayIntersect` reports no hit and leaves `hit` alone. -/
theorem sphere.rayIntersect_of_lt (sqrt : F32 → F32) (s : sphere F32) (a : ray F32)
    (hit : vec3 F32) (h : s.det a < 0) : s.rayIntersect sqrt a hit = (false, hit) := by
  rw [sphere.rayIntersect_unfold, if_pos h]

/-- With a zero discriminant `rayIntersect` reports the point at `-b`. -/
theorem sphere.rayIntersect_of_eq_zero (sqrt : F32 → F32) (s : sphere F32) (a : ray F32)
    (hit : vec3 F32) (h : s.det a = 0) :
    s.rayIntersect sqrt a hit = (true, a.pointAtDist (-s.coefB a)) := by
  rw [sphere.rayIntersect_unfold, if_neg (by rw [h]; exact F32.lt_irrefl 0), if_pos h]

/-- With a discriminant that is neither negative nor zero `rayIntersect` compares the two
roots. -/
theorem sphere.rayIntersect_of_not_lt (sqrt : F32 → F32) (s : sphere F32) (a : ray F32)
    (hit : vec3 F32) (h1 : ¬ s.det a < 0) (h2 : s.det a ≠ 0) :
    s.rayIntersect sqrt a hit =
      (true, if -s.coefB a + sqrt (s.det a) > -s.coefB a - sqrt (s.det a)
        then a.pointAtDist (-s.coefB a - sqrt (s.det a))
        else a.pointAtDist (-s.coefB a + sqrt (s.det a))) := by
  rw [sphere.rayIntersect_unfold, if_neg h1, if_neg h2]
  split <;> rfl

/-- The boolean of `rayIntersect` is `true` exactly when the test `det < 0` fails. -/
theorem sphere.rayIntersect_fst (sqrt : F32 → F32) (s : sphere F32) (a : ray F32)
    (hit : vec3 F32) : (s.rayIntersect sqrt a hit).1 = true ↔ ¬ s.det a < 0 := by
  by_cases h1 : s.det a < 0
  · simp [sphere.rayIntersect_of_lt sqrt s a hit h1, h1]
  · by_cases h2 : s.det a = 0
    · simp [sphere.rayIntersect_of_eq_zero sqrt s a hit h2, h1]
    · simp [sphere.rayIntersect_of_not_lt sqrt s a hit h1 h2, h1]

/-- A reported hit is the point of the ray at one of the three parameters the code computes. -/
theorem sphere.rayIntersect_hit (sqrt : F32 → F32) (s : sphere F32) (a : ray F32)
    (hit : vec3 F32) (h : (s.rayIntersect sqrt a hit).1 = true) :
    ∃ t : F32, (s.rayIntersect sqrt a hit).2 = a.pointAtDist t ∧
      ((s.det a = 0 ∧ t = -s.coefB a) ∨
       (s.det a ≠ 0 ∧ -s.coefB a + sqrt (s.det a) > -s.coefB a - sqrt (s.det a) ∧
          t = -s.coefB a - sqrt (s.det a)) ∨
       (s.det a ≠ 0 ∧ ¬ -s.coefB a + sqrt (s.det a) > -s.coefB a - sqrt (s.det a) ∧
          t = -s.coefB a + sqrt (s.det a))) := by
  have h1 := (sphere.rayIntersect_fst sqrt s a hit).mp h
  by_cases h2 : s.det a = 0
  · exact ⟨_, by rw [sphere.rayIntersect_of_eq_zero sqrt s a hit h2], Or.inl ⟨h2, rfl⟩⟩
  · rw [sphere.rayIntersect_of_not_lt sqrt s a hit h1 h2]
    by_cases h3 : -s.coefB a + sqrt (s.det a) > -s.coefB a - sqrt (s.det a)
    · exact ⟨_, by simp only [if_pos h3], Or.inr (Or.inl ⟨h2, h3, rfl⟩)⟩
    · exact ⟨_, by simp only [if_neg h3], Or.inr (Or.inr ⟨h2, h3, rfl⟩)⟩

/-! ## Runs without rounding

When no operation rounds, the `float` run of the program computes the exact values: the run of
the same program with exact arithmetic on the exact values of the data. -/

/-- An exact sum is finite and its exact value is the sum of the exact values. -/
theorem F32.toRat_add (x y : F32) (h : F32.ExactAdd x y) :
    (x + y).IsFin ∧ (x + y).toRat = x.toRat + y.toRat := by
  cases x with
  | nan => exact h.elim
  | inf s => exact h.elim
  | fin p =>
    cases y with
    | nan => exact h.elim
    | inf s => exact h.elim
    | fin q =>
      have h2 : F32.fin p + F32.fin q = F32.fin (p + q) := h
      rw [h2]
      refine ⟨trivial, ?_⟩
      simp only [F32.toRat, Int.cast_add]
      rw [add_div]

/-- The exact value of the opposite. -/
theorem F32.toRat_neg (x : F32) : (-x).toRat = -x.toRat := by
  cases x with
  | nan => simp [F32.neg_eq, F32.neg, F32.toRat]
  | inf s => simp [F32.neg_eq, F32.neg, F32.toRat]
  | fin p =>
    simp only [F32.neg_eq, F32.neg, F32.toRat, Int.cast_neg]
    rw [neg_div]

/-- An exact difference is finite and its exact value is the difference of the exact values. -/
theorem F32.toRat_sub (x y : F32) (h : F32.ExactSub x y) :
    (x - y).IsFin ∧ (x - y).toRat = x.toRat - y.toRat := by
  have h2 := F32.toRat_add x (-y) h
  rw [F32.toRat_neg] at h2
  exact ⟨h2.1, by rw [sub_eq_add_neg]; exact h2.2⟩

/-- A quotient by `c` of a product of two multiples of `c`. -/
theorem F32.div_of_mul_eq (c k p q : ℚ) (hc : c ≠ 0) (h : k * c = p * q) :
    k / c = p / c * (q / c) := by
  field_simp
  linear_combination c * h

/-- An exact product is finite and its exact value is the product of the exact values. -/
theorem F32.toRat_mul (x y : F32) (h : F32.ExactMul x y) :
    (x * y).IsFin ∧ (x * y).toRat = x.toRat * y.toRat := by
  cases x with
  | nan => exact h.elim
  | inf s => exact h.elim
  | fin p =>
    cases y with
    | nan => exact h.elim
    | inf s => exact h.elim
    | fin q =>
      obtain ⟨hdvd, h2⟩ : (2 : ℤ) ^ 149 ∣ p * q ∧
        F32.fin p * F32.fin q = F32.fin (p * q / 2 ^ 149) := h
      rw [h2]
      refine ⟨trivial, ?_⟩
      simp only [F32.toRat]
      apply F32.div_of_mul_eq _ _ _ _ (pow_ne_zero _ two_ne_zero)
      have h3 := Int.ediv_mul_cancel hdvd
      have h4 : ((p * q / 2 ^ 149 * 2 ^ 149 : ℤ) : ℚ) = ((p * q : ℤ) : ℚ) := by rw [h3]
      simpa only [Int.cast_mul, Int.cast_pow, Int.cast_ofNat] using h4

/-- A square of a multiple of `1/c`. -/
theorem F32.div_mul_div_self (c m n : ℝ) (hc : c ≠ 0) (h : m * m = n * c) :
    m / c * (m / c) = n / c := by
  field_simp
  linear_combination c * h

/-- An exact square root is finite and its exact value is the square root of the exact value. -/
theorem F32.toRat_sqrt (x : F32) (h : F32.ExactSqrt x) :
    (F32.sqrt x).IsFin ∧ ((F32.sqrt x).toRat : ℝ) = Real.sqrt (x.toRat : ℝ) := by
  cases x with
  | nan => exact h.elim
  | inf s => exact h.elim
  | fin n =>
    unfold F32.ExactSqrt at h
    generalize F32.sqrt (F32.fin n) = r at h
    cases r with
    | nan => exact h.elim
    | inf s => exact h.elim
    | fin m =>
      obtain ⟨h0, hm⟩ : 0 ≤ m ∧ m * m = n * 2 ^ 149 := h
      refine ⟨trivial, ?_⟩
      have hc : ((2 : ℝ) ^ 149) ≠ 0 := pow_ne_zero _ two_ne_zero
      have hm2 : ((m : ℝ) * (m : ℝ)) = (n : ℝ) * 2 ^ 149 := by exact_mod_cast hm
      have hpos : (0 : ℝ) ≤ (m : ℝ) / 2 ^ 149 :=
        div_nonneg (by exact_mod_cast h0) (pow_nonneg zero_le_two _)
      have hsq := F32.div_mul_div_self _ _ _ hc hm2
      simp only [F32.toRat, Rat.cast_div, Rat.cast_intCast, Rat.cast_pow, Rat.cast_ofNat]
      rw [← hsq, Real.sqrt_mul_self hpos]

/-- The comparison `<` of finite values is the comparison of their exact values. -/
theorem F32.lt_iff_toRat (x y : F32) (hx : x.IsFin) (hy : y.IsFin) :
    x < y ↔ x.toRat < y.toRat := by
  cases x with
  | nan => exact hx.elim
  | inf s => exact hx.elim
  | fin p =>
    cases y with
    | nan => exact hy.elim
    | inf s => exact hy.elim
    | fin q =>
      have hc : (0 : ℚ) < 2 ^ 149 := pow_pos zero_lt_two _
      simp only [F32.lt_iff, F32.lt, decide_eq_true_eq, F32.toRat]
      rw [div_lt_div_iff_of_pos_right hc, Int.cast_lt]

/-- The comparison `==` of finite values is the equality of their exact values. -/
theorem F32.eq_iff_toRat (x y : F32) (hx : x.IsFin) (hy : y.IsFin) :
    x = y ↔ x.toRat = y.toRat := by
  cases x with
  | nan => exact hx.elim
  | inf s => exact hx.elim
  | fin p =>
    cases y with
    | nan => exact hy.elim
    | inf s => exact hy.elim
    | fin q =>
      have hc : (2 : ℚ) ^ 149 ≠ 0 := pow_ne_zero _ two_ne_zero
      simp only [F32.toRat, F32.fin.injEq]
      rw [div_left_inj' hc, Int.cast_inj]

/-- The `float` zero is finite. -/
theorem F32.isFin_zero : (0 : F32).IsFin := trivial

/-- The exact value of the `float` zero. -/
theorem F32.toRat_zero : (0 : F32).toRat = 0 := by
  simp [F32.zero_eq, F32.toRat]

/-- The operands of an exact sum are finite. -/
theorem F32.isFin_of_exactAdd (x y : F32) (h : F32.ExactAdd x y) : x.IsFin ∧ y.IsFin := by
  cases x <;> cases y <;> first | exact h.elim | exact ⟨trivial, trivial⟩

/-- The opposite of a finite value is finite. -/
theorem F32.isFin_neg (x : F32) (h : x.IsFin) : (-x).IsFin := by
  cases x <;> first | exact h.elim | exact trivial

/-- An exact difference of vectors has the exact difference as its exact value. -/
theorem vec3.toReal_sub (u v : vec3 F32) (h : vec3.ExactSub u v) :
    (u.sub v).toReal = u.toReal.sub v.toReal := by
  obtain ⟨hx, hy, hz⟩ := h
  simp only [vec3.sub, vec3.toReal, (F32.toRat_sub _ _ hx).2, (F32.toRat_sub _ _ hy).2,
    (F32.toRat_sub _ _ hz).2, Rat.cast_sub]

/-- An exact sum of vectors has the exact sum as its exact value. -/
theorem vec3.toReal_add (u v : vec3 F32) (h : vec3.ExactAdd u v) :
    (u.add v).toReal = u.toReal.add v.toReal := by
  obtain ⟨hx, hy, hz⟩ := h
  simp only [vec3.add, vec3.toReal, (F32.toRat_add _ _ hx).2, (F32.toRat_add _ _ hy).2,
    (F32.toRat_add _ _ hz).2, Rat.cast_add]

/-- An exact scaling of a vector has the exact scaling as its exact value. -/
theorem vec3.toReal_mul (v : vec3 F32) (t : F32) (h : vec3.ExactMul v t) :
    (v.mul t).toReal = v.toReal.mul (t.toRat : ℝ) := by
  obtain ⟨hx, hy, hz⟩ := h
  simp only [vec3.mul, vec3.toReal, (F32.toRat_mul _ _ hx).2, (F32.toRat_mul _ _ hy).2,
    (F32.toRat_mul _ _ hz).2, Rat.cast_mul]

/-- An exact dot product is finite and has the exact dot product as its exact value. -/
theorem vec3.toReal_dot (u v : vec3 F32) (h : vec3.ExactDot u v) :
    (u.dot v).IsFin ∧ ((u.dot v).toRat : ℝ) = u.toReal.dot v.toReal := by
  obtain ⟨hx, hy, hz, h1, h2⟩ := h
  refine ⟨(F32.toRat_add _ _ h2).1, ?_⟩
  simp only [vec3.dot, vec3.toReal, (F32.toRat_add _ _ h2).2, (F32.toRat_add _ _ h1).2,
    (F32.toRat_mul _ _ hx).2, (F32.toRat_mul _ _ hy).2, (F32.toRat_mul _ _ hz).2,
    Rat.cast_add, Rat.cast_mul]

/-- An exact `pointAtDist(t)` has the point of the exact ray at the exact `t` as its exact
value. -/
theorem ray.toReal_pointAtDist (a : ray F32) (t : F32) (h : a.ExactPoint t) :
    (a.pointAtDist t).toReal = a.toReal.pointAtDist (t.toRat : ℝ) := by
  obtain ⟨h1, h2⟩ := h
  simp only [ray.pointAtDist, ray.toReal]
  rw [vec3.toReal_add _ _ h2]
  simp only [vec3.smul]
  rw [vec3.toReal_mul _ _ h1]

/-- In a run without rounding the locals `b`, `c` and `det` are finite and their exact values are
the `b`, `c` and `det` of the exact data. -/
theorem sphere.toReal_det (s : sphere F32) (a : ray F32) (h : s.ExactRun a) :
    (s.coefB a).IsFin ∧ ((s.coefB a).toRat : ℝ) = s.toReal.coefB a.toReal ∧
    ((s.coefC a).toRat : ℝ) = s.toReal.coefC a.toReal ∧
    (s.det a).IsFin ∧ ((s.det a).toRat : ℝ) = s.toReal.det a.toReal := by
  obtain ⟨h1, h2, h3, h4, h5, h6, h7, -⟩ := h
  have hoc := vec3.toReal_sub _ _ h1
  have hb := vec3.toReal_dot _ _ h2
  have hcc := vec3.toReal_dot _ _ h3
  have hrr := F32.toRat_mul _ _ h4
  have hc := F32.toRat_sub _ _ h5
  have hbb := F32.toRat_mul _ _ h6
  have hd := F32.toRat_sub _ _ h7
  have hB : ((s.coefB a).toRat : ℝ) = s.toReal.coefB a.toReal := by
    simp only [sphere.coefB]
    rw [hb.2, hoc]
    rfl
  have hC : ((s.coefC a).toRat : ℝ) = s.toReal.coefC a.toReal := by
    simp only [sphere.coefC]
    rw [hc.2, Rat.cast_sub, hcc.2, hoc, hrr.2, Rat.cast_mul]
    rfl
  refine ⟨hb.1, hB, hC, hd.1, ?_⟩
  simp only [sphere.det]
  rw [hd.2, Rat.cast_sub, hbb.2, Rat.cast_mul, hB, hC]

/-- In a run without rounding, `rayIntersect` returns the boolean, and reports the exact value of
the hit, that the same code returns with exact arithmetic on the exact values of the data. -/
theorem sphere.rayIntersect_toReal (s : sphere F32) (a : ray F32) (hit : vec3 F32)
    (h : s.ExactRun a) :
    (s.rayIntersect F32.sqrt a hit).1 = (s.toReal.rayIntersect Real.sqrt a.toReal hit.toReal).1 ∧
    (s.rayIntersect F32.sqrt a hit).2.toReal
      = (s.toReal.rayIntersect Real.sqrt a.toReal hit.toReal).2 := by
  obtain ⟨hbf, hB, -, hdf, hD⟩ := sphere.toReal_det s a h
  have hrun := h.2.2.2.2.2.2.2
  have hlt : s.det a < 0 ↔ s.toReal.det a.toReal < 0 := by
    rw [F32.lt_iff_toRat _ 0 hdf F32.isFin_zero, F32.toRat_zero, ← hD]
    exact_mod_cast Iff.rfl
  have hz : s.det a = 0 ↔ s.toReal.det a.toReal = 0 := by
    rw [F32.eq_iff_toRat _ 0 hdf F32.isFin_zero, F32.toRat_zero, ← hD]
    exact_mod_cast Iff.rfl
  rw [sphere.rayIntersect_unfold, sphere.rayIntersect_unfold]
  by_cases h1 : s.det a < 0
  · rw [if_pos h1, if_pos (hlt.mp h1)]
    exact ⟨rfl, rfl⟩
  · have hrun := hrun h1
    rw [if_neg h1, if_neg (fun hc => h1 (hlt.mpr hc))]
    by_cases h2 : s.det a = 0
    · rw [if_pos h2] at hrun
      rw [if_pos h2, if_pos (hz.mp h2)]
      refine ⟨rfl, ?_⟩
      show (a.pointAtDist (-s.coefB a)).toReal = _
      rw [ray.toReal_pointAtDist _ _ hrun, F32.toRat_neg, Rat.cast_neg, hB]
    · rw [if_neg h2] at hrun
      obtain ⟨hs, hadd, hsub, hp⟩ := hrun
      rw [if_neg h2, if_neg (fun hc => h2 (hz.mpr hc))]
      have hsq := F32.toRat_sqrt _ hs
      have ht1 := F32.toRat_add _ _ hadd
      have ht2 := F32.toRat_sub _ _ hsub
      have e1 : ((-s.coefB a + F32.sqrt (s.det a)).toRat : ℝ)
          = -s.toReal.coefB a.toReal + Real.sqrt (s.toReal.det a.toReal) := by
        rw [ht1.2, Rat.cast_add, F32.toRat_neg, Rat.cast_neg, hB, hsq.2, hD]
      have e2 : ((-s.coefB a - F32.sqrt (s.det a)).toRat : ℝ)
          = -s.toReal.coefB a.toReal - Real.sqrt (s.toReal.det a.toReal) := by
        rw [ht2.2, Rat.cast_sub, F32.toRat_neg, Rat.cast_neg, hB, hsq.2, hD]
      have hgt : -s.coefB a + F32.sqrt (s.det a) > -s.coefB a - F32.sqrt (s.det a) ↔
          -s.toReal.coefB a.toReal + Real.sqrt (s.toReal.det a.toReal)
            > -s.toReal.coefB a.toReal - Real.sqrt (s.toReal.det a.toReal) := by
        rw [gt_iff_lt, gt_iff_lt, F32.lt_iff_toRat _ _ ht2.1 ht1.1, ← e1, ← e2]
        exact_mod_cast Iff.rfl
      by_cases h3 : -s.coefB a + F32.sqrt (s.det a) > -s.coefB a - F32.sqrt (s.det a)
      · rw [if_pos h3] at hp
        rw [if_pos h3, if_pos (hgt.mp h3)]
        refine ⟨rfl, ?_⟩
        show (a.pointAtDist _).toReal = _
        rw [ray.toReal_pointAtDist _ _ hp, e2]
      · rw [if_neg h3] at hp
        rw [if_neg h3, if_neg (fun hc => h3 (hgt.mpr hc))]
        refine ⟨rfl, ?_⟩
        show (a.pointAtDist _).toReal = _
        rw [ray.toReal_pointAtDist _ _ hp, e1]

/-- An exact sum of vectors is finite. -/
theorem vec3.isFin_add (u v : vec3 F32) (h : vec3.ExactAdd u v) : (u.add v).IsFin :=
  ⟨(F32.toRat_add _ _ h.1).1, (F32.toRat_add _ _ h.2.1).1, (F32.toRat_add _ _ h.2.2).1⟩

/-- An exact `pointAtDist(t)` is finite. -/
theorem ray.isFin_pointAtDist (a : ray F32) (t : F32) (h : a.ExactPoint t) :
    (a.pointAtDist t).IsFin :=
  vec3.isFin_add _ _ h.2

/-- A value whose opposite is finite is finite. -/
theorem F32.isFin_of_neg (x : F32) (h : (-x).IsFin) : x.IsFin := by
  cases x <;> first | exact h.elim | exact trivial

/-- The operands of an exact difference of vectors are finite. -/
theorem vec3.isFin_of_exactSub (u v : vec3 F32) (h : vec3.ExactSub u v) : u.IsFin ∧ v.IsFin :=
  ⟨⟨(F32.isFin_of_exactAdd _ _ h.1).1, (F32.isFin_of_exactAdd _ _ h.2.1).1,
      (F32.isFin_of_exactAdd _ _ h.2.2).1⟩,
    ⟨F32.isFin_of_neg _ (F32.isFin_of_exactAdd _ _ h.1).2,
      F32.isFin_of_neg _ (F32.isFin_of_exactAdd _ _ h.2.1).2,
      F32.isFin_of_neg _ (F32.isFin_of_exactAdd _ _ h.2.2).2⟩⟩

/-- Finite vectors with the same exact values are equal. -/
theorem vec3.eq_of_toReal (u v : vec3 F32) (hu : u.IsFin) (hv : v.IsFin)
    (h : u.toReal = v.toReal) : u = v := by
  rcases u with ⟨ux, uy, uz⟩
  rcases v with ⟨vx, vy, vz⟩
  simp only [vec3.toReal, vec3.mk.injEq, Rat.cast_inj] at h
  obtain ⟨hx, hy, hz⟩ := h
  have ex : ux = vx := (F32.eq_iff_toRat _ _ hu.1 hv.1).mpr hx
  have ey : uy = vy := (F32.eq_iff_toRat _ _ hu.2.1 hv.2.1).mpr hy
  have ez : uz = vz := (F32.eq_iff_toRat _ _ hu.2.2 hv.2.2).mpr hz
  rw [ex, ey, ez]

/-- A vector whose `dot` with itself is computed without rounding and is `1` has exactly unit
length. -/
theorem vec3.toReal_unit (v : vec3 F32) (he : vec3.ExactDot v v)
    (h : v.dot v = F32.ofInt 1) : v.toReal.dot v.toReal = 1 := by
  rw [← (vec3.toReal_dot v v he).2, h, F32.toRat_ofInt 1 (by decide)]
  norm_num

/-- In a run without rounding that reports a hit, the hit is finite. -/
theorem sphere.isFin_hit (s : sphere F32) (a : ray F32) (hit : vec3 F32)
    (h : s.ExactRun a) (hret : (s.rayIntersect F32.sqrt a hit).1 = true) :
    (s.rayIntersect F32.sqrt a hit).2.IsFin := by
  have h1 := (sphere.rayIntersect_fst F32.sqrt s a hit).mp hret
  have hrun := h.2.2.2.2.2.2.2 h1
  by_cases h2 : s.det a = 0
  · rw [if_pos h2] at hrun
    rw [sphere.rayIntersect_of_eq_zero F32.sqrt s a hit h2]
    exact ray.isFin_pointAtDist _ _ hrun
  · rw [if_neg h2] at hrun
    rw [sphere.rayIntersect_of_not_lt F32.sqrt s a hit h1 h2]
    have hp := hrun.2.2.2
    by_cases h3 : -s.coefB a + F32.sqrt (s.det a) > -s.coefB a - F32.sqrt (s.det a)
    · rw [if_pos h3] at hp
      simp only [if_pos h3]
      exact ray.isFin_pointAtDist _ _ hp
    · rw [if_neg h3] at hp
      simp only [if_neg h3]
      exact ray.isFin_pointAtDist _ _ hp

/-- In a run without rounding the comparisons of `det` with zero are those of the exact
discriminant. -/
theorem sphere.det_lt_iff_toReal (s : sphere F32) (a : ray F32) (h : s.ExactRun a) :
    (s.det a < 0 ↔ s.toReal.det a.toReal < 0) ∧ (0 < s.det a ↔ 0 < s.toReal.det a.toReal) ∧
    (s.det a = 0 ↔ s.toReal.det a.toReal = 0) := by
  obtain ⟨-, -, -, hdf, hD⟩ := sphere.toReal_det s a h
  refine ⟨?_, ?_, ?_⟩
  · rw [F32.lt_iff_toRat _ 0 hdf F32.isFin_zero, F32.toRat_zero, ← hD]
    exact_mod_cast Iff.rfl
  · rw [F32.lt_iff_toRat 0 _ F32.isFin_zero hdf, F32.toRat_zero, ← hD]
    exact_mod_cast Iff.rfl
  · rw [F32.eq_iff_toRat _ 0 hdf F32.isFin_zero, F32.toRat_zero, ← hD]
    exact_mod_cast Iff.rfl

/-- In a run without rounding that reaches the two-root branch, `t1` and `t2` are finite and
their exact values are the two roots computed from the exact data. -/
theorem sphere.toReal_roots (s : sphere F32) (a : ray F32) (h : s.ExactRun a)
    (h1 : ¬ s.det a < 0) (h2 : s.det a ≠ 0) :
    (-s.coefB a + F32.sqrt (s.det a)).IsFin ∧
    ((-s.coefB a + F32.sqrt (s.det a)).toRat : ℝ)
      = -s.toReal.coefB a.toReal + Real.sqrt (s.toReal.det a.toReal) ∧
    (-s.coefB a - F32.sqrt (s.det a)).IsFin ∧
    ((-s.coefB a - F32.sqrt (s.det a)).toRat : ℝ)
      = -s.toReal.coefB a.toReal - Real.sqrt (s.toReal.det a.toReal) := by
  obtain ⟨-, hB, -, -, hD⟩ := sphere.toReal_det s a h
  have hrun := h.2.2.2.2.2.2.2 h1
  rw [if_neg h2] at hrun
  obtain ⟨hs, hadd, hsub, -⟩ := hrun
  have hsq := F32.toRat_sqrt _ hs
  have ht1 := F32.toRat_add _ _ hadd
  have ht2 := F32.toRat_sub _ _ hsub
  refine ⟨ht1.1, ?_, ht2.1, ?_⟩
  · rw [ht1.2, Rat.cast_add, F32.toRat_neg, Rat.cast_neg, hB, hsq.2, hD]
  · rw [ht2.2, Rat.cast_sub, F32.toRat_neg, Rat.cast_neg, hB, hsq.2, hD]

/-- In a run without rounding the test "the origin is strictly inside the sphere" is that of the
exact data. -/
theorem sphere.inside_iff_toReal (s : sphere F32) (a : ray F32) (h : s.ExactRun a) :
    (a.origin.sub s.center).dot (a.origin.sub s.center) < s.radius * s.radius ↔
    (a.toReal.origin.sub s.toReal.center).dot (a.toReal.origin.sub s.toReal.center)
      < s.toReal.radius * s.toReal.radius := by
  obtain ⟨h1, -, h3, h4, -⟩ := h
  have hoc := vec3.toReal_sub _ _ h1
  have hcc := vec3.toReal_dot _ _ h3
  have hrr := F32.toRat_mul _ _ h4
  rw [F32.lt_iff_toRat _ _ hcc.1 hrr.1]
  have e1 : (a.toReal.origin.sub s.toReal.center).dot (a.toReal.origin.sub s.toReal.center)
      = (((a.origin.sub s.center).dot (a.origin.sub s.center)).toRat : ℝ) := by
    rw [hcc.2, hoc]
    rfl
  have e2 : s.toReal.radius * s.toReal.radius = ((s.radius * s.radius).toRat : ℝ) := by
    rw [hrr.2, Rat.cast_mul]
    rfl
  rw [e1, e2]
  exact_mod_cast Iff.rfl

/-! ## The square root -/

/-- The digit-by-digit square root keeps its invariant. -/
theorem F32.isqrtAux_spec (k N r : ℕ) (h1 : r * r ≤ N)
    (h2 : N < (r + 2 ^ k) * (r + 2 ^ k)) :
    F32.isqrtAux k N r * F32.isqrtAux k N r ≤ N ∧
    N < (F32.isqrtAux k N r + 1) * (F32.isqrtAux k N r + 1) := by
  induction k generalizing r with
  | zero => exact ⟨h1, by simpa using h2⟩
  | succ k ih =>
    simp only [F32.isqrtAux]
    split
    · next h =>
      apply ih _ h
      have e : r + 2 ^ k + 2 ^ k = r + 2 ^ (k + 1) := by rw [pow_succ]; ring
      rw [e]
      exact h2
    · next h => exact ih _ h1 (not_le.mp h)

/-- The integer square root is the largest `r` with `r * r ≤ N`. -/
theorem F32.isqrt_spec (N : ℕ) :
    F32.isqrt N * F32.isqrt N ≤ N ∧ N < (F32.isqrt N + 1) * (F32.isqrt N + 1) := by
  apply F32.isqrtAux_spec _ _ _ (Nat.zero_le _)
  have h := F32.lt_two_pow_bitlen N
  have h2 : F32.bitlen N ≤ 2 * (F32.bitlen N / 2 + 1) := by omega
  calc N < 2 ^ F32.bitlen N := h
    _ ≤ 2 ^ (2 * (F32.bitlen N / 2 + 1)) := Nat.pow_le_pow_right (by norm_num) h2
    _ = (0 + 2 ^ (F32.bitlen N / 2 + 1)) * (0 + 2 ^ (F32.bitlen N / 2 + 1)) := by
      rw [Nat.zero_add, ← pow_add]; congr 1; omega

/-- The integer square root of a positive number is positive. -/
theorem F32.isqrt_pos (N : ℕ) (h : 0 < N) : 0 < F32.isqrt N := by
  by_contra hc
  have h0 : F32.isqrt N = 0 := by omega
  have h2 := (F32.isqrt_spec N).2
  rw [h0] at h2
  omega

/-- The rounded square root of a positive number is positive. -/
theorem F32.sqrtMag_pos (N : ℕ) (h : 0 < N) : 0 < F32.sqrtMag N := by
  have hr := F32.isqrt_pos N h
  have hs : 2 ^ F32.shift (F32.isqrt N) ≤ F32.isqrt N := by
    have h1 := (F32.bitlenAux_spec (F32.isqrt N) (F32.isqrt N) (Nat.le_refl _)).2 (by omega)
    refine le_trans (Nat.pow_le_pow_right (by norm_num) ?_) h1
    simp only [F32.shift, F32.bitlen]
    omega
  have h4 : 4 ^ F32.shift (F32.isqrt N) ≤ N := by
    have e : 4 ^ F32.shift (F32.isqrt N)
        = 2 ^ F32.shift (F32.isqrt N) * 2 ^ F32.shift (F32.isqrt N) := by
      rw [← mul_pow]
      norm_num
    rw [e]
    exact le_trans (Nat.mul_le_mul hs hs) (F32.isqrt_spec N).1
  have hm : 0 < F32.isqrt (N / 4 ^ F32.shift (F32.isqrt N)) :=
    F32.isqrt_pos _ (Nat.div_pos h4 (by positivity))
  simp only [F32.sqrtMag]
  split
  · positivity
  · split
    · positivity
    · split <;> positivity

/-- The `float` square root is above zero exactly when its argument is. -/
theorem F32.sqrt_pos_iff (x : F32) : 0 < F32.sqrt x ↔ 0 < x := by
  cases x with
  | nan => exact Iff.rfl
  | inf s => cases s <;> simp [F32.sqrt, F32.lt_iff, F32.zero_eq, F32.lt]
  | fin n =>
    by_cases hn : n < 0
    · simp only [F32.sqrt, if_pos hn, F32.lt_iff, F32.zero_eq, F32.lt, decide_eq_true_eq]
      constructor
      · intro h; exact absurd h (by simp)
      · intro h; omega
    · simp only [F32.sqrt, if_neg hn, F32.lt_iff, F32.zero_eq, F32.lt, decide_eq_true_eq]
      constructor
      · intro h
        by_contra hc
        have h0 : n = 0 := by omega
        subst h0
        have hz : F32.sqrtMag ((0 : ℤ).natAbs * 2 ^ 149) = 0 := by decide
        rw [hz] at h
        exact absurd h (by simp)
      · intro h
        have hp : 0 < n.natAbs * 2 ^ 149 := Nat.mul_pos (by omega) (by positivity)
        exact_mod_cast F32.sqrtMag_pos _ hp

/-- The `float` square root is zero exactly when its argument is. -/
theorem F32.sqrt_eq_zero_iff (x : F32) : F32.sqrt x = 0 ↔ x = 0 := by
  cases x with
  | nan => simp [F32.sqrt, F32.zero_eq]
  | inf s => cases s <;> simp [F32.sqrt, F32.zero_eq]
  | fin n =>
    by_cases hn : n < 0
    · simp only [F32.sqrt, if_pos hn, F32.zero_eq, F32.fin.injEq]
      constructor
      · intro h; exact absurd h (by simp)
      · intro h; omega
    · simp only [F32.sqrt, if_neg hn, F32.zero_eq, F32.fin.injEq]
      constructor
      · intro h
        by_contra hc
        have hp : 0 < n.natAbs * 2 ^ 149 := Nat.mul_pos (by omega) (by positivity)
        have := F32.sqrtMag_pos _ hp
        omega
      · intro h
        subst h
        decide

/-- The square of an exactly computed square root is the argument. -/
theorem F32.sqrt_mul_self_of_exact (x : F32) (hx : F32.Valid x) (h : F32.ExactSqrt x) :
    F32.sqrt x * F32.sqrt x = x := by
  cases x with
  | nan => exact h.elim
  | inf s => exact h.elim
  | fin n =>
    unfold F32.ExactSqrt at h
    generalize F32.sqrt (F32.fin n) = r at h
    cases r with
    | nan => exact h.elim
    | inf s => exact h.elim
    | fin m =>
      obtain ⟨-, hm⟩ : 0 ≤ m ∧ m * m = n * 2 ^ 149 := h
      show F32.mul (F32.fin m) (F32.fin m) = F32.fin n
      simp only [F32.mul, hm]
      rw [decide_eq_decide.mpr (F32.mul_two_pow_neg_iff n), Int.natAbs_mul,
        F32.natAbs_two_pow]
      have hmag : F32.roundMag (n.natAbs * 2 ^ 149) (2 ^ 149) = F32.roundMag n.natAbs 1 := by
        have := F32.roundMag_mul_left (2 ^ 149) n.natAbs 1 (by positivity)
        rwa [Nat.mul_one, Nat.mul_comm] at this
      have hself := F32.round_self n hx
      simp only [F32.round] at hself ⊢
      rw [hmag]
      exact hself

/-- The operands of an exact product are finite. -/
theorem F32.isFin_of_exactMul (x y : F32) (h : F32.ExactMul x y) : x.IsFin ∧ y.IsFin := by
  cases x <;> cases y <;> first | exact h.elim | exact ⟨trivial, trivial⟩

/-- A vector whose squares and their sum are computed without rounding has `dot` with itself
equal to zero exactly when it is the zero vector. -/
theorem vec3.dot_self_eq_zero_iff (v : vec3 F32) (he : vec3.ExactDot v v) :
    v.dot v = 0 ↔ v = vec3.ctor₀ := by
  have hfin : v.IsFin := ⟨(F32.isFin_of_exactMul _ _ he.1).1, (F32.isFin_of_exactMul _ _ he.2.1).1,
    (F32.isFin_of_exactMul _ _ he.2.2.1).1⟩
  obtain ⟨hdf, hd⟩ := vec3.toReal_dot v v he
  constructor
  · intro h
    rw [h, F32.toRat_zero, Rat.cast_zero] at hd
    have hsum : (v.x.toRat : ℝ) * v.x.toRat + (v.y.toRat : ℝ) * v.y.toRat
        + (v.z.toRat : ℝ) * v.z.toRat = 0 := hd.symm
    have hx : (v.x.toRat : ℝ) = 0 := by
      nlinarith [mul_self_nonneg (v.x.toRat : ℝ), mul_self_nonneg (v.y.toRat : ℝ),
        mul_self_nonneg (v.z.toRat : ℝ)]
    have hy : (v.y.toRat : ℝ) = 0 := by
      nlinarith [mul_self_nonneg (v.x.toRat : ℝ), mul_self_nonneg (v.y.toRat : ℝ),
        mul_self_nonneg (v.z.toRat : ℝ)]
    have hz : (v.z.toRat : ℝ) = 0 := by
      nlinarith [mul_self_nonneg (v.x.toRat : ℝ), mul_self_nonneg (v.y.toRat : ℝ),
        mul_self_nonneg (v.z.toRat : ℝ)]
    have hz0 : (vec3.ctor₀ : vec3 F32).IsFin := ⟨F32.isFin_zero, F32.isFin_zero, F32.isFin_zero⟩
    apply vec3.eq_of_toReal _ _ hfin hz0
    simp only [vec3.toReal, hx, hy, hz, vec3.ctor₀, F32.toRat_zero, Rat.cast_zero]
  · rintro rfl
    decide

/-- A nonzero vector whose squares and their sum are computed without rounding has a squared
length above zero. -/
theorem vec3.dot_self_pos (v : vec3 F32) (he : vec3.ExactDot v v) (hv : v ≠ vec3.ctor₀) :
    0 < v.dot v := by
  obtain ⟨hdf, hd⟩ := vec3.toReal_dot v v he
  rw [F32.lt_iff_toRat 0 _ F32.isFin_zero hdf, F32.toRat_zero]
  have hne : v.dot v ≠ 0 := fun h => hv ((vec3.dot_self_eq_zero_iff v he).mp h)
  have hne2 : (v.dot v).toRat ≠ 0 := fun h =>
    hne ((F32.eq_iff_toRat _ 0 hdf F32.isFin_zero).mpr (by rw [h, F32.toRat_zero]))
  have hnn : (0 : ℝ) ≤ ((v.dot v).toRat : ℝ) := by
    rw [hd]
    simp only [vec3.dot]
    nlinarith [mul_self_nonneg v.toReal.x, mul_self_nonneg v.toReal.y,
      mul_self_nonneg v.toReal.z]
  have hnn2 : (0 : ℚ) ≤ (v.dot v).toRat := by exact_mod_cast hnn
  exact lt_of_le_of_ne hnn2 (Ne.symm hne2)

/-- Two exact products with the same exact value cancel. -/
theorem F32.sub_eq_zero_of_exact (p q r s : F32) (h1 : F32.ExactMul p q) (h2 : F32.ExactMul r s)
    (h : p.toRat * q.toRat = r.toRat * s.toRat) : p * q - r * s = 0 := by
  obtain ⟨f1, e1⟩ := F32.toRat_mul _ _ h1
  obtain ⟨f2, e2⟩ := F32.toRat_mul _ _ h2
  have heq : p * q = r * s := (F32.eq_iff_toRat _ _ f1 f2).mpr (by rw [e1, e2, h])
  rw [heq]
  generalize r * s = w at f2
  cases w with
  | nan => exact f2.elim
  | inf t => exact f2.elim
  | fin n => exact F32.fin_sub_self n

/-- The product of `1` and a value that is at least zero is at least zero. -/
theorem F32.one_mul_nonneg (t : F32) (h : 0 ≤ t) : 0 ≤ F32.ofInt 1 * t := by
  rw [F32.ofInt_eq 1 (by decide)]
  cases t with
  | nan => simp [F32.le_iff, F32.zero_eq, F32.le] at h
  | inf s =>
    cases s
    · decide!
    · simp [F32.le_iff, F32.zero_eq, F32.le] at h
  | fin n =>
    have hn : 0 ≤ n := by simpa [F32.le_iff, F32.zero_eq, F32.le] using h
    have hs : decide (1 * 2 ^ 149 * n < 0) = false :=
      decide_eq_false (not_lt.mpr (mul_nonneg (by positivity) hn))
    show 0 ≤ F32.mul (F32.fin (1 * 2 ^ 149)) (F32.fin n)
    simp only [F32.mul, hs]
    exact F32.round_false_nonneg _ _

/-! ## The discriminant test -/

/-- C1, as stated, fails: for the sphere of center `(2^70, 0, 2^70)` and radius `1` and the ray
from `(0,0,0)` along `(0,0,1)` the squares overflow, `det = inf - inf` is not a number, both
tests `det < 0` and `det >= 0` fail, and `rayIntersect` returns `true`. -/
theorem sphere.rayIntersect_true_on_nan_det :
    sphere.det ⟨⟨F32.lit 1 70, F32.ofInt 0, F32.lit 1 70⟩, F32.ofInt 1⟩
      ⟨vec3.ofInts 0 0 0, vec3.ofInts 0 0 1⟩ = F32.nan ∧
    ¬ (0 ≤ sphere.det ⟨⟨F32.lit 1 70, F32.ofInt 0, F32.lit 1 70⟩, F32.ofInt 1⟩
      ⟨vec3.ofInts 0 0 0, vec3.ofInts 0 0 1⟩) ∧
    (sphere.rayIntersect F32.sqrt ⟨⟨F32.lit 1 70, F32.ofInt 0, F32.lit 1 70⟩, F32.ofInt 1⟩
      ⟨vec3.ofInts 0 0 0, vec3.ofInts 0 0 1⟩ (vec3.ofInts 7 8 9)).1 = true := by
  decide!

/-- C1, amended: for every sphere and ray, with `b`, `c`, `det` the locals of `rayIntersect` as
computed in `float` arithmetic, the function returns `false` exactly when `det < 0` and `true`
exactly when that test fails, which is when `det >= 0` or `det` is not a number; when it returns
`false` the output vector `hit` is left unchanged.  For the sphere of `main` (center
`(0,10,10)`, radius `5`) and the ray that `main` constructs (origin `(0,0,0)`, direction
`(0,0,1)`), `det = -75` and no intersection is reported. -/
theorem sphere.rayIntersect_false_iff_det_lt (s : sphere F32) (a : ray F32) (hit : vec3 F32) :
    ((s.rayIntersect F32.sqrt a hit).1 = false ↔ s.det a < 0) ∧
    ((s.rayIntersect F32.sqrt a hit).1 = true ↔ (0 ≤ s.det a ∨ s.det a = F32.nan)) ∧
    ((s.rayIntersect F32.sqrt a hit).1 = false → (s.rayIntersect F32.sqrt a hit).2 = hit) ∧
    ray.ctor F32.sqrt (vec3.ofInts 0 0 0) (vec3.ofInts 0 0 1)
      = some ⟨vec3.ofInts 0 0 0, vec3.ofInts 0 0 1⟩ ∧
    sphere.det (sphere.ctor (vec3.ofInts 0 10 10) (F32.ofInt 5))
      ⟨vec3.ofInts 0 0 0, vec3.ofInts 0 0 1⟩ = F32.ofInt (-75) ∧
    (sphere.ctor (vec3.ofInts 0 10 10) (F32.ofInt 5)).rayIntersect F32.sqrt
      ⟨vec3.ofInts 0 0 0, vec3.ofInts 0 0 1⟩ hit = (false, hit) := by
  have htrue := sphere.rayIntersect_fst F32.sqrt s a hit
  have hfalse : (s.rayIntersect F32.sqrt a hit).1 = false ↔ s.det a < 0 := by
    rw [← Bool.not_eq_true, htrue, not_not]
  refine ⟨hfalse, htrue.trans (F32.not_lt_zero_iff _), ?_, by decide!, by decide!, ?_⟩
  · intro h
    rw [sphere.rayIntersect_of_lt F32.sqrt s a hit (hfalse.mp h)]
  · exact sphere.rayIntersect_of_lt F32.sqrt _ _ hit (by decide!)

/-- C1, amended, at a concrete input: the unit sphere shifted to `(0,3,0)` is missed by the ray
from the origin along `z`, and the caller's `hit = (7,8,9)` comes back untouched. -/
theorem sphere.rayIntersect_false_iff_det_lt_witness :
    (sphere.rayIntersect F32.sqrt ⟨vec3.ofInts 0 3 0, F32.ofInt 1⟩
      ⟨vec3.ofInts 0 0 0, vec3.ofInts 0 0 1⟩ (vec3.ofInts 7 8 9)).2 = vec3.ofInts 7 8 9 :=
  (sphere.rayIntersect_false_iff_det_lt ⟨vec3.ofInts 0 3 0, F32.ofInt 1⟩
    ⟨vec3.ofInts 0 0 0, vec3.ofInts 0 0 1⟩ (vec3.ofInts 7 8 9)).2.2.1
    ((sphere.rayIntersect_false_iff_det_lt ⟨vec3.ofInts 0 3 0, F32.ofInt 1⟩
      ⟨vec3.ofInts 0 0 0, vec3.ofInts 0 0 1⟩ (vec3.ofInts 7 8 9)).1.mpr (by decide!))

/-- C7, as stated, fails: for center `(0,0,5)`, radius `2` and the ray from `(0,0,0)` along
`(0,0,1)` the discriminant is not zero, and the reported hit is not the only point of the ray's
line on the sphere: the point at distance `7` is on the sphere too.  This holds with exact
arithmetic (the first three parts) and in `float` arithmetic, where `det = 4` and the hit is
`(0,0,3)`, not `pointAtDist(-b) = (0,0,5)` (the last four). -/
theorem sphere.rayIntersect_scenario_not_tangent :
    (sphere.det ⟨⟨0, 0, 5⟩, 2⟩ (⟨⟨0, 0, 0⟩, ⟨0, 0, 1⟩⟩ : ray ℝ) ≠ 0 ∧
    sphere.rayIntersect Real.sqrt ⟨⟨0, 0, 5⟩, 2⟩ ⟨⟨0, 0, 0⟩, ⟨0, 0, 1⟩⟩ ⟨7, 8, 9⟩
      ≠ (true, (⟨⟨0, 0, 0⟩, ⟨0, 0, 1⟩⟩ : ray ℝ).pointAtDist
          (-sphere.coefB ⟨⟨0, 0, 5⟩, 2⟩ ⟨⟨0, 0, 0⟩, ⟨0, 0, 1⟩⟩)) ∧
    ¬ ∀ t : ℝ, sphere.onSurface ⟨⟨0, 0, 5⟩, 2⟩ ((⟨⟨0, 0, 0⟩, ⟨0, 0, 1⟩⟩ : ray ℝ).pointAtDist t) →
      (⟨⟨0, 0, 0⟩, ⟨0, 0, 1⟩⟩ : ray ℝ).pointAtDist t =
        (sphere.rayIntersect Real.sqrt ⟨⟨0, 0, 5⟩, 2⟩ ⟨⟨0, 0, 0⟩, ⟨0, 0, 1⟩⟩ ⟨7, 8, 9⟩).2) ∧
    (sphere.det ⟨vec3.ofInts 0 0 5, F32.ofInt 2⟩ ⟨vec3.ofInts 0 0 0, vec3.ofInts 0 0 1⟩
      = F32.ofInt 4 ∧
    sphere.det ⟨vec3.ofInts 0 0 5, F32.ofInt 2⟩ ⟨vec3.ofInts 0 0 0, vec3.ofInts 0 0 1⟩ ≠ 0 ∧
    sphere.rayIntersect F32.sqrt ⟨vec3.ofInts 0 0 5, F32.ofInt 2⟩
      ⟨vec3.ofInts 0 0 0, vec3.ofInts 0 0 1⟩ (vec3.ofInts 7 8 9) = (true, vec3.ofInts 0 0 3) ∧
    sphere.rayIntersect F32.sqrt ⟨vec3.ofInts 0 0 5, F32.ofInt 2⟩
      ⟨vec3.ofInts 0 0 0, vec3.ofInts 0 0 1⟩ (vec3.ofInts 7 8 9)
      ≠ (true, (⟨vec3.ofInts 0 0 0, vec3.ofInts 0 0 1⟩ : ray F32).pointAtDist
          (-sphere.coefB ⟨vec3.ofInts 0 0 5, F32.ofInt 2⟩
            ⟨vec3.ofInts 0 0 0, vec3.ofInts 0 0 1⟩))) := by
  have hdet : sphere.det ⟨⟨0, 0, 5⟩, 2⟩ (⟨⟨0, 0, 0⟩, ⟨0, 0, 1⟩⟩ : ray ℝ) = 4 := by
    norm_num [sphere.det, sphere.coefB, sphere.coefC, vec3.dot, vec3.sub]
  have hsqrt : Real.sqrt 4 = 2 := by
    rw [show (4 : ℝ) = 2 * 2 by norm_num]
    exact Real.sqrt_mul_self (by norm_num)
  have hres : sphere.rayIntersect Real.sqrt ⟨⟨0, 0, 5⟩, 2⟩ ⟨⟨0, 0, 0⟩, ⟨0, 0, 1⟩⟩ ⟨7, 8, 9⟩
      = (true, (⟨0, 0, 3⟩ : vec3 ℝ)) := by
    rw [sphere.rayIntersect_of_det_pos _ _ _ (by rw [hdet]; norm_num), hdet, hsqrt]
    norm_num [ray.pointAtDist_eq, sphere.coefB, vec3.dot, vec3.sub]
  refine ⟨⟨by rw [hdet]; norm_num, ?_, ?_⟩, by decide!, by decide!, by decide!, by decide!⟩
  · rw [hres]
    norm_num [ray.pointAtDist_eq, sphere.coefB, vec3.dot, vec3.sub]
  · intro h
    have h7 := h 7 (by norm_num [sphere.onSurface, ray.pointAtDist_eq, vec3.dot, vec3.sub])
    rw [hres] at h7
    norm_num [ray.pointAtDist_eq] at h7

/-- C7, amended: for center `(0,0,5)`, radius `2` and the ray from `(0,0,0)` along `(0,0,1)`,
`det = 4 > 0`, so the two-root branch is taken and exactly one hit is reported,
`pointAtDist(-b - sqrt det) = pointAtDist(3) = (0,0,3)`, the nearer of the two points
`(0,0,3)` and `(0,0,7)` of the ray's line that lie on the sphere.  The tangent case arises for
center `(2,0,5)`: there `det = 0` and the hit `(0,0,5)` is the only point of the line on the
sphere.  The values are the same with exact arithmetic (the first seven parts) and in `float`
arithmetic (the last four). -/
theorem sphere.rayIntersect_scenario_two_roots :
    (sphere.det ⟨⟨0, 0, 5⟩, 2⟩ (⟨⟨0, 0, 0⟩, ⟨0, 0, 1⟩⟩ : ray ℝ) = 4 ∧
    sphere.rayIntersect Real.sqrt ⟨⟨0, 0, 5⟩, 2⟩ ⟨⟨0, 0, 0⟩, ⟨0, 0, 1⟩⟩ ⟨7, 8, 9⟩
      = (true, (⟨0, 0, 3⟩ : vec3 ℝ)) ∧
    (⟨⟨0, 0, 0⟩, ⟨0, 0, 1⟩⟩ : ray ℝ).pointAtDist 3 = ⟨0, 0, 3⟩ ∧
    (∀ t : ℝ, sphere.onSurface ⟨⟨0, 0, 5⟩, 2⟩ ((⟨⟨0, 0, 0⟩, ⟨0, 0, 1⟩⟩ : ray ℝ).pointAtDist t) ↔
      t = 3 ∨ t = 7) ∧
    sphere.det ⟨⟨2, 0, 5⟩, 2⟩ (⟨⟨0, 0, 0⟩, ⟨0, 0, 1⟩⟩ : ray ℝ) = 0 ∧
    sphere.rayIntersect Real.sqrt ⟨⟨2, 0, 5⟩, 2⟩ ⟨⟨0, 0, 0⟩, ⟨0, 0, 1⟩⟩ ⟨7, 8, 9⟩
      = (true, (⟨0, 0, 5⟩ : vec3 ℝ)) ∧
    (∀ t : ℝ, sphere.onSurface ⟨⟨2, 0, 5⟩, 2⟩ ((⟨⟨0, 0, 0⟩, ⟨0, 0, 1⟩⟩ : ray ℝ).pointAtDist t) ↔
      t = 5)) ∧
    (sphere.det ⟨vec3.ofInts 0 0 5, F32.ofInt 2⟩ ⟨vec3.ofInts 0 0 0, vec3.ofInts 0 0 1⟩
      = F32.ofInt 4 ∧
    sphere.rayIntersect F32.sqrt ⟨vec3.ofInts 0 0 5, F32.ofInt 2⟩
      ⟨vec3.ofInts 0 0 0, vec3.ofInts 0 0 1⟩ (vec3.ofInts 7 8 9) = (true, vec3.ofInts 0 0 3) ∧
    sphere.det ⟨vec3.ofInts 2 0 5, F32.ofInt 2⟩ ⟨vec3.ofInts 0 0 0, vec3.ofInts 0 0 1⟩ = 0 ∧
    sphere.rayIntersect F32.sqrt ⟨vec3.ofInts 2 0 5, F32.ofInt 2⟩
      ⟨vec3.ofInts 0 0 0, vec3.ofInts 0 0 1⟩ (vec3.ofInts 7 8 9)
      = (true, vec3.ofInts 0 0 5)) := by
  have hdet : sphere.det ⟨⟨0, 0, 5⟩, 2⟩ (⟨⟨0, 0, 0⟩, ⟨0, 0, 1⟩⟩ : ray ℝ) = 4 := by
    norm_num [sphere.det, sphere.coefB, sphere.coefC, vec3.dot, vec3.sub]
  have hdet0 : sphere.det ⟨⟨2, 0, 5⟩, 2⟩ (⟨⟨0, 0, 0⟩, ⟨0, 0, 1⟩⟩ : ray ℝ) = 0 := by
    norm_num [sphere.det, sphere.coefB, sphere.coefC, vec3.dot, vec3.sub]
  have hsqrt : Real.sqrt 4 = 2 := by
    rw [show (4 : ℝ) = 2 * 2 by norm_num]
    exact Real.sqrt_mul_self (by norm_num)
  refine ⟨⟨hdet, ?_, ?_, ?_, hdet0, ?_, ?_⟩, by decide!, by decide!, by decide!, by decide!⟩
  · rw [sphere.rayIntersect_of_det_pos _ _ _ (by rw [hdet]; norm_num), hdet, hsqrt]
    norm_num [ray.pointAtDist_eq, sphere.coefB, vec3.dot, vec3.sub]
  · norm_num [ray.pointAtDist_eq]
  · intro t
    rw [sphere.onSurface_pointAtDist_unit _ _ _ (by norm_num [vec3.dot]), hdet]
    have hb : sphere.coefB ⟨⟨0, 0, 5⟩, 2⟩ (⟨⟨0, 0, 0⟩, ⟨0, 0, 1⟩⟩ : ray ℝ) = -5 := by
      norm_num [sphere.coefB, vec3.dot, vec3.sub]
    rw [hb]
    constructor
    · intro h
      have h2 : (t - 3) * (t - 7) = 0 := by linear_combination h
      rcases mul_eq_zero.mp h2 with h3 | h3
      · left; linarith
      · right; linarith
    · rintro (rfl | rfl) <;> norm_num
  · rw [sphere.rayIntersect_of_det_zero _ _ _ hdet0]
    norm_num [ray.pointAtDist_eq, sphere.coefB, vec3.dot, vec3.sub]
  · intro t
    rw [sphere.onSurface_pointAtDist_unit _ _ _ (by norm_num [vec3.dot]), hdet0]
    have hb : sphere.coefB ⟨⟨2, 0, 5⟩, 2⟩ (⟨⟨0, 0, 0⟩, ⟨0, 0, 1⟩⟩ : ray ℝ) = -5 := by
      norm_num [sphere.coefB, vec3.dot, vec3.sub]
    rw [hb]
    constructor
    · intro h
      have h0 : t + -5 = 0 := mul_self_eq_zero.mp h
      linarith
    · rintro rfl
      norm_num

/-! ## Hits behind the origin -/

/-- C12, as stated, fails in its last part: for the sphere of center `(2^70, 0, 2^70)` and
radius `1` and the ray from `(0,0,0)` along `(0,0,1)`, `det` is not a number and `sqrt` is called
on it: replacing `sqrt` by `sqrtAlt`, which agrees with it on every strictly positive argument,
changes the result of `rayIntersect`. -/
theorem sphere.rayIntersect_sqrt_of_nan :
    (∀ x : F32, 0 < x → F32.sqrtAlt x = F32.sqrt x) ∧
    sphere.det ⟨⟨F32.lit 1 70, F32.ofInt 0, F32.lit 1 70⟩, F32.ofInt 1⟩
      ⟨vec3.ofInts 0 0 0, vec3.ofInts 0 0 1⟩ = F32.nan ∧
    sphere.rayIntersect F32.sqrtAlt ⟨⟨F32.lit 1 70, F32.ofInt 0, F32.lit 1 70⟩, F32.ofInt 1⟩
      ⟨vec3.ofInts 0 0 0, vec3.ofInts 0 0 1⟩ (vec3.ofInts 7 8 9)
      ≠ sphere.rayIntersect F32.sqrt ⟨⟨F32.lit 1 70, F32.ofInt 0, F32.lit 1 70⟩, F32.ofInt 1⟩
        ⟨vec3.ofInts 0 0 0, vec3.ofInts 0 0 1⟩ (vec3.ofInts 7 8 9) := by
  refine ⟨fun x hx => ?_, by decide!, by decide!⟩
  have hne := (F32.ne_nan_of_lt _ _ hx).2
  simp only [F32.sqrtAlt, if_neg hne]

/-- C12, amended: no error is raised on the construct-and-intersect path, whatever the inputs:
`normalized()` calls `operator/` only in the branch `len > 0`, where the assertion holds, so
`normalized()`, `normalize()` and the two-argument ray constructor always return a value;
`rayIntersect` has no failing step and no division, and it evaluates `sqrt` only at a `det`
that is strictly positive or not a number: two `sqrt` functions that agree on those arguments
give the same result. -/
theorem sphere.construct_intersect_no_error (sqrt : F32 → F32)
    (v o d : vec3 F32) (s : sphere F32) (a : ray F32) (hit : vec3 F32) :
    (0 < v.length sqrt →
      v.normalized sqrt = v.div (v.length sqrt) ∧ v.div (v.length sqrt) ≠ none) ∧
    (¬ 0 < v.length sqrt → v.normalized sqrt = some vec3.ctor₀) ∧
    (∃ n, v.normalized sqrt = some n) ∧
    (∃ n, v.normalize sqrt = some n) ∧
    (∃ r, ray.ctor sqrt o d = some r) ∧
    (∀ sqrt2 : F32 → F32, (∀ x, (0 < x ∨ x = F32.nan) → sqrt2 x = sqrt x) →
      s.rayIntersect sqrt2 a hit = s.rayIntersect sqrt a hit) := by
  refine ⟨fun h => ?_, (vec3.normalized_eq sqrt v).2, vec3.normalized_some sqrt v,
    vec3.normalized_some sqrt v, ?_, fun sqrt2 hagree => ?_⟩
  · obtain ⟨h1, h2⟩ := (vec3.normalized_eq sqrt v).1 h
    exact ⟨by rw [h1, h2], by rw [h2]; exact Option.some_ne_none _⟩
  · obtain ⟨n, hn⟩ := vec3.normalized_some sqrt d
    exact ⟨_, ray.ctor_eq sqrt o d n hn⟩
  · by_cases h1 : s.det a < 0
    · rw [sphere.rayIntersect_of_lt sqrt2 s a hit h1, sphere.rayIntersect_of_lt sqrt s a hit h1]
    · by_cases h2 : s.det a = 0
      · rw [sphere.rayIntersect_of_eq_zero sqrt2 s a hit h2,
          sphere.rayIntersect_of_eq_zero sqrt s a hit h2]
      · have h3 : 0 < s.det a ∨ s.det a = F32.nan := by
          by_cases h4 : 0 < s.det a
          · exact Or.inl h4
          · exact Or.inr (F32.eq_nan_of_not_lt _ h1 h2 h4)
        rw [sphere.rayIntersect_of_not_lt sqrt2 s a hit h1 h2,
          sphere.rayIntersect_of_not_lt sqrt s a hit h1 h2, hagree _ h3]

/-- C12, amended, at a concrete input: replacing `sqrt` by a function that differs from it at
zero does not change what `rayIntersect` returns on a tangent ray (`det = 0`). -/
theorem sphere.construct_intersect_no_error_witness :
    sphere.rayIntersect (fun x : F32 => if x = 0 then F32.ofInt 17 else F32.sqrt x)
        ⟨vec3.ofInts 2 0 5, F32.ofInt 2⟩ ⟨vec3.ofInts 0 0 0, vec3.ofInts 0 0 1⟩
        (vec3.ofInts 7 8 9)
      = sphere.rayIntersect F32.sqrt ⟨vec3.ofInts 2 0 5, F32.ofInt 2⟩
        ⟨vec3.ofInts 0 0 0, vec3.ofInts 0 0 1⟩ (vec3.ofInts 7 8 9) :=
  (sphere.construct_intersect_no_error F32.sqrt (vec3.ofInts 0 3 4) (vec3.ofInts 0 0 0)
    (vec3.ofInts 0 0 1) ⟨vec3.ofInts 2 0 5, F32.ofInt 2⟩
    ⟨vec3.ofInts 0 0 0, vec3.ofInts 0 0 1⟩ (vec3.ofInts 7 8 9)).2.2.2.2.2
    (fun x : F32 => if x = 0 then F32.ofInt 17 else F32.sqrt x) (fun x hx => by
      have hne : x ≠ 0 := by
        rcases hx with hx | hx
        · exact (F32.not_lt_of_pos x hx).2
        · rw [hx]; decide
      simp only [if_neg hne])

/-! ## Division by a scalar -/

/-- C13: scalar division fails if and only if the divisor is zero: for every vector `v` and
scalar `a`, `v / a` and `v /= a` fail their assertion exactly when `a = 0`, and otherwise yield
`(x/a, y/a, z/a)`; when `v /= a` fails the receiver is still `v`.  No law of arithmetic is used:
the statement holds in `float` arithmetic and with exact arithmetic alike. -/
theorem vec3.div_fails_iff_zero {F : Type} [Add F] [Sub F] [Mul F] [Div F] [Neg F] [Zero F]
    [LT F] [DecidableRel (α := F) (· < ·)] [DecidableEq F] (v : vec3 F) (a : F) :
    (v.div a = none ↔ a = 0) ∧
    (a ≠ 0 → v.div a = some ⟨v.x / a, v.y / a, v.z / a⟩) ∧
    ((∃ e, v.divAssign a = Except.error e) ↔ a = 0) ∧
    (a ≠ 0 → v.divAssign a = Except.ok ⟨v.x / a, v.y / a, v.z / a⟩) ∧
    (a = 0 → v.divAssign a = Except.error v) := by
  by_cases ha : a = 0
  · subst ha
    simp [vec3.div, vec3.divAssign]
  · simp [vec3.div, vec3.divAssign, ha]

/-- C13 at concrete inputs: `(2,4,6) / 2 = (1,2,3)`, `(2,4,6) /= 2` leaves `(1,2,3)`, and
`(2,4,6) /= 0` fails with the receiver still `(2,4,6)`, with exact arithmetic and in `float`
arithmetic. -/
theorem vec3.div_fails_iff_zero_witness :
    ((⟨2, 4, 6⟩ : vec3 ℝ).div 2 = some ⟨1, 2, 3⟩ ∧
    (⟨2, 4, 6⟩ : vec3 ℝ).divAssign 2 = Except.ok ⟨1, 2, 3⟩ ∧
    (⟨2, 4, 6⟩ : vec3 ℝ).divAssign 0 = Except.error ⟨2, 4, 6⟩) ∧
    ((vec3.ofInts 2 4 6).div (F32.ofInt 2) = some (vec3.ofInts 1 2 3) ∧
    (vec3.ofInts 2 4 6).divAssign (F32.ofInt 2) = Except.ok (vec3.ofInts 1 2 3) ∧
    (vec3.ofInts 2 4 6).divAssign 0 = Except.error (vec3.ofInts 2 4 6)) := by
  have h := vec3.div_fails_iff_zero (⟨2, 4, 6⟩ : vec3 ℝ) 2
  have h0 := vec3.div_fails_iff_zero (⟨2, 4, 6⟩ : vec3 ℝ) 0
  have hf := vec3.div_fails_iff_zero (vec3.ofInts 2 4 6) (F32.ofInt 2)
  have hf0 := vec3.div_fails_iff_zero (vec3.ofInts 2 4 6) (0 : F32)
  refine ⟨⟨?_, ?_, h0.2.2.2.2 rfl⟩, ?_, ?_, hf0.2.2.2.2 rfl⟩
  · rw [h.2.1 (by norm_num)]
    norm_num
  · rw [h.2.2.2.1 (by norm_num)]
    norm_num
  · rw [hf.2.1 (by decide!)]
    decide!
  · rw [hf.2.2.2.1 (by decide!)]
    exact congrArg Except.ok (by decide!)

/-! ## Vector algebra -/

/-- C14, as stated, fails: for `a = (1,2,3)` and `b = (100000000, 100000000, 100000000)` each
sum `a_i + b_i` rounds to `b_i`, and `(a + b) - b` is `(0,0,0)`, not `a`. -/
theorem vec3.add_sub_absorbed :
    ((vec3.ofInts 1 2 3).add (vec3.ofInts 100000000 100000000 100000000)).sub
      (vec3.ofInts 100000000 100000000 100000000) = vec3.ofInts 0 0 0 ∧
    vec3.ofInts 0 0 0 ≠ vec3.ofInts 1 2 3 := by
  decide!

/-- C14, amended: for all vectors `a` and `b`, `a + b = b + a`; and subtraction undoes
addition, `(a + b) - b = a`, whenever `a` is a vector of binary32 values and the three component
sums are exact (finite, and not rounded). -/
theorem vec3.add_comm_sub_cancel (a b : vec3 F32) :
    a.add b = b.add a ∧
    (a.Valid → F32.ExactAdd a.x b.x → F32.ExactAdd a.y b.y → F32.ExactAdd a.z b.z →
      (a.add b).sub b = a) := by
  constructor
  · simp only [vec3.add, F32.add_comm]
  · rintro ⟨vx, vy, vz⟩ hx hy hz
    rcases a with ⟨ax, ay, az⟩
    simp only [vec3.add, vec3.sub, F32.add_sub_cancel_of_exact _ _ vx hx,
      F32.add_sub_cancel_of_exact _ _ vy hy, F32.add_sub_cancel_of_exact _ _ vz hz]

/-- C14, amended, at a concrete input: `((1,2,3) + (4,5,6)) - (4,5,6) = (1,2,3)`. -/
theorem vec3.add_comm_sub_cancel_witness :
    ((vec3.ofInts 1 2 3).add (vec3.ofInts 4 5 6)).sub (vec3.ofInts 4 5 6) = vec3.ofInts 1 2 3 :=
  (vec3.add_comm_sub_cancel (vec3.ofInts 1 2 3) (vec3.ofInts 4 5 6)).2
    (by decide!) (by decide!) (by decide!) (by decide!)

/-- C15, as stated, fails: for `v = (1,2,3)` and `s = 2^127` the products `2 * s` and `3 * s`
overflow to `+inf`, and `(v * s) / s` is `(1, +inf, +inf)`, not `v`. -/
theorem vec3.mul_div_overflow :
    F32.lit 1 127 ≠ 0 ∧
    ((vec3.ofInts 1 2 3).mul (F32.lit 1 127)).div (F32.lit 1 127)
      = some ⟨F32.ofInt 1, F32.inf false, F32.inf false⟩ ∧
    (⟨F32.ofInt 1, F32.inf false, F32.inf false⟩ : vec3 F32) ≠ vec3.ofInts 1 2 3 := by
  decide!

/-- C15, amended: for every vector `v` and every scalar `s ≠ 0` the assertion of the division
in `(v * s) / s` holds and a vector is returned; it is `v` whenever `v` is a vector of binary32
values and the three component products are exact (finite, and not rounded); and scaling is the
same in both operand orders, `s * v = v * s`. -/
theorem vec3.mul_div_cancel (v : vec3 F32) (s : F32) :
    (s ≠ 0 → ∃ w, (v.mul s).div s = some w) ∧
    (s ≠ 0 → v.Valid → F32.ExactMul v.x s → F32.ExactMul v.y s → F32.ExactMul v.z s →
      (v.mul s).div s = some v) ∧
    vec3.smul s v = v.mul s := by
  refine ⟨fun hs => ?_, fun hs => ?_, rfl⟩
  · exact ⟨⟨(v.mul s).x / s, (v.mul s).y / s, (v.mul s).z / s⟩,
      by simp only [vec3.div, if_pos hs]⟩
  · rintro ⟨vx, vy, vz⟩ hx hy hz
    rcases v with ⟨x, y, z⟩
    simp only [vec3.div, vec3.mul, if_pos hs, F32.mul_div_cancel_of_exact _ _ hs vx hx,
      F32.mul_div_cancel_of_exact _ _ hs vy hy, F32.mul_div_cancel_of_exact _ _ hs vz hz]

/-- C15, amended, at a concrete input: `((1,2,3) * 4) / 4 = (1,2,3)`. -/
theorem vec3.mul_div_cancel_witness :
    ((vec3.ofInts 1 2 3).mul (F32.ofInt 4)).div (F32.ofInt 4) = some (vec3.ofInts 1 2 3) :=
  (vec3.mul_div_cancel (vec3.ofInts 1 2 3) (F32.ofInt 4)).2.1
    (by decide!) (by decide!) (by decide!) (by decide!) (by decide!)

/-- C16, as stated, fails: `a = (1 + 2^(-23), 3, 0)` and `b = 3 * a` are parallel, but the
products `a.x * b.y` and `a.y * b.x` round differently and `a.cross(b)` has the component
`z = -2^(-20)`; and for `a = (2^100, 2^100, 0)` the products overflow and `a.cross(a)` has the
component `z = inf - inf`, which is not a number. -/
theorem vec3.cross_parallel_nonzero :
    (⟨F32.lit 8388609 (-23), F32.ofInt 3, F32.ofInt 0⟩ : vec3 F32).cross
      (vec3.smul (F32.ofInt 3) ⟨F32.lit 8388609 (-23), F32.ofInt 3, F32.ofInt 0⟩)
      = ⟨F32.ofInt 0, F32.ofInt 0, F32.lit (-1) (-20)⟩ ∧
    (⟨F32.ofInt 0, F32.ofInt 0, F32.lit (-1) (-20)⟩ : vec3 F32) ≠ vec3.ctor₀ ∧
    (⟨F32.lit 1 100, F32.lit 1 100, F32.ofInt 0⟩ : vec3 F32).cross
      ⟨F32.lit 1 100, F32.lit 1 100, F32.ofInt 0⟩ = ⟨F32.ofInt 0, F32.ofInt 0, F32.nan⟩ ∧
    (⟨F32.ofInt 0, F32.ofInt 0, F32.nan⟩ : vec3 F32) ≠ vec3.ctor₀ := by
  decide!

/-- C16, amended: `cross` is anti-commutative, `a.cross(b) = -1 * b.cross(a)` for all vectors
`a` and `b`; it is the zero vector when either operand is the zero vector and the other has
finite components; `a.cross(a)` is the zero vector when the pairwise products of the components
of `a` are finite; and `a.cross(b)` is the zero vector for parallel operands, `b = k * a`, when
the products of `k * a` and of the cross product are computed without rounding. -/
theorem vec3.cross_anticomm_parallel (a b : vec3 F32) :
    a.cross b = vec3.smul (F32.ofInt (-1)) (b.cross a) ∧
    (a = vec3.ctor₀ → b.IsFin → a.cross b = vec3.ctor₀) ∧
    (b = vec3.ctor₀ → a.IsFin → a.cross b = vec3.ctor₀) ∧
    ((a.y * a.z).IsFin → (a.x * a.z).IsFin → (a.x * a.y).IsFin →
      a.cross a = vec3.ctor₀) ∧
    (∀ k : F32, b = vec3.smul k a → vec3.ExactMul a k → vec3.ExactCross a b →
      a.cross b = vec3.ctor₀) := by
  refine ⟨?_, ?_, ?_, ?_, ?_⟩
  · simp only [vec3.cross, vec3.smul, vec3.mul, vec3.mk.injEq]
    refine ⟨?_, ?_, ?_⟩
    · rw [F32.mul_comm b.y a.z, F32.mul_comm b.z a.y, F32.sub_mul_neg_one]
    · rw [F32.mul_neg_one _ (F32.neg_valid _ (F32.sub_valid _ _)), F32.neg_neg, F32.neg_sub,
        F32.mul_comm b.x a.z, F32.mul_comm b.z a.x]
    · rw [F32.mul_comm b.x a.y, F32.mul_comm b.y a.x, F32.sub_mul_neg_one]
  · rintro rfl ⟨hx, hy, hz⟩
    rcases b with ⟨bx, by', bz⟩
    cases bx with
    | nan => exact absurd hx (by simp [F32.IsFin])
    | inf s => exact absurd hx (by simp [F32.IsFin])
    | fin p =>
      cases by' with
      | nan => exact absurd hy (by simp [F32.IsFin])
      | inf s => exact absurd hy (by simp [F32.IsFin])
      | fin q =>
        cases bz with
        | nan => exact absurd hz (by simp [F32.IsFin])
        | inf s => exact absurd hz (by simp [F32.IsFin])
        | fin r =>
          have h1 : ∀ n : ℤ, F32.fin 0 * F32.fin n = F32.fin 0 := F32.zero_mul_fin
          have h2 : F32.fin 0 - F32.fin 0 = F32.fin 0 := F32.fin_sub_self 0
          have h3 : -(F32.fin 0) = F32.fin 0 := rfl
          simp only [vec3.cross, vec3.ctor₀, F32.zero_eq, h1, h2, h3]
  · rintro rfl ⟨hx, hy, hz⟩
    rcases a with ⟨ax, ay, az⟩
    cases ax with
    | nan => exact absurd hx (by simp [F32.IsFin])
    | inf s => exact absurd hx (by simp [F32.IsFin])
    | fin p =>
      cases ay with
      | nan => exact absurd hy (by simp [F32.IsFin])
      | inf s => exact absurd hy (by simp [F32.IsFin])
      | fin q =>
        cases az with
        | nan => exact absurd hz (by simp [F32.IsFin])
        | inf s => exact absurd hz (by simp [F32.IsFin])
        | fin r =>
          have h1 : ∀ n : ℤ, F32.fin n * F32.fin 0 = F32.fin 0 := F32.fin_mul_zero
          have h2 : F32.fin 0 - F32.fin 0 = F32.fin 0 := F32.fin_sub_self 0
          have h3 : -(F32.fin 0) = F32.fin 0 := rfl
          simp only [vec3.cross, vec3.ctor₀, F32.zero_eq, h1, h2, h3]
  · intro h1 h2 h3
    have hsub : ∀ p : F32, p.IsFin → p - p = 0 := by
      intro p hp
      cases p with
      | nan => exact absurd hp (by simp [F32.IsFin])
      | inf s => exact absurd hp (by simp [F32.IsFin])
      | fin n => exact F32.fin_sub_self n
    simp only [vec3.cross, vec3.ctor₀, F32.mul_comm a.z a.y, F32.mul_comm a.z a.x,
      F32.mul_comm a.y a.x, hsub _ h1, hsub _ h2, hsub _ h3, F32.neg_zero]
  · rintro k rfl ⟨mx, my, mz⟩ ⟨h1, h2, h3, h4, h5, h6⟩
    have ex := (F32.toRat_mul _ _ mx).2
    have ey := (F32.toRat_mul _ _ my).2
    have ez := (F32.toRat_mul _ _ mz).2
    simp only [vec3.smul, vec3.mul] at h1 h2 h3 h4 h5 h6
    have c1 := F32.sub_eq_zero_of_exact _ _ _ _ h1 h2 (by rw [ez, ey]; ring)
    have c2 := F32.sub_eq_zero_of_exact _ _ _ _ h3 h4 (by rw [ez, ex]; ring)
    have c3 := F32.sub_eq_zero_of_exact _ _ _ _ h5 h6 (by rw [ey, ex]; ring)
    simp only [vec3.cross, vec3.smul, vec3.mul, vec3.ctor₀, c1, c2, c3, F32.neg_zero]

/-- C16, amended, at a concrete input: the zero vector crossed with `(1,2,3)` is the zero
vector, and `(1,2,3)` crossed with `3 * (1,2,3)`, all products being exact, is the zero
vector. -/
theorem vec3.cross_anticomm_parallel_witness :
    (vec3.ctor₀ : vec3 F32).cross (vec3.ofInts 1 2 3) = vec3.ctor₀ ∧
    (vec3.ofInts 1 2 3).cross (vec3.smul (F32.ofInt 3) (vec3.ofInts 1 2 3)) = vec3.ctor₀ :=
  ⟨(vec3.cross_anticomm_parallel vec3.ctor₀ (vec3.ofInts 1 2 3)).2.1 rfl (by decide!),
    (vec3.cross_anticomm_parallel (vec3.ofInts 1 2 3)
      (vec3.smul (F32.ofInt 3) (vec3.ofInts 1 2 3))).2.2.2.2 (F32.ofInt 3) rfl
      (by decide!) (by decide!)⟩

/-! ## Length -/

/-- C17, as stated, fails: the vector `(2^(-80), 0, 0)` is not the zero vector but its square
underflows and `length()` is `0`; and for `(1,1,0)`, `length() * length()` is not
`lengthSquared() = 2`. -/
theorem vec3.length_zero_of_nonzero :
    (⟨F32.lit 1 (-80), F32.ofInt 0, F32.ofInt 0⟩ : vec3 F32) ≠ vec3.ctor₀ ∧
    (⟨F32.lit 1 (-80), F32.ofInt 0, F32.ofInt 0⟩ : vec3 F32).length F32.sqrt = 0 ∧
    (vec3.ofInts 1 1 0).lengthSquared = F32.ofInt 2 ∧
    (vec3.ofInts 1 1 0).length F32.sqrt * (vec3.ofInts 1 1 0).length F32.sqrt
      ≠ (vec3.ofInts 1 1 0).lengthSquared := by
  decide!

/-- C17, amended: for every vector `v`, `v.dot(v)` equals `v.lengthSquared()`, and `v.length()`
is the `float` square root of that value: it is at least zero or not a number, and
`length() * length() = lengthSquared()` when the square root is computed without rounding.
`v.length() = 0` if and only if `v.lengthSquared() = 0`, which, when the squares and their sum
are computed without rounding, holds if and only if `v` is the zero vector. -/
theorem vec3.length_spec (v : vec3 F32) :
    v.dot v = v.lengthSquared ∧
    v.length F32.sqrt = F32.sqrt v.lengthSquared ∧
    (0 ≤ v.length F32.sqrt ∨ v.length F32.sqrt = F32.nan) ∧
    (F32.ExactSqrt v.lengthSquared →
      v.length F32.sqrt * v.length F32.sqrt = v.lengthSquared) ∧
    (v.length F32.sqrt = 0 ↔ v.lengthSquared = 0) ∧
    (vec3.ExactDot v v → (v.length F32.sqrt = 0 ↔ v = vec3.ctor₀)) ∧
    (vec3.ctor₀ : vec3 F32).length F32.sqrt = 0 := by
  refine ⟨rfl, rfl, (F32.sqrt_nonneg _).symm, fun h => ?_, F32.sqrt_eq_zero_iff _,
    fun he => (F32.sqrt_eq_zero_iff _).trans (vec3.dot_self_eq_zero_iff v he), by decide!⟩
  exact F32.sqrt_mul_self_of_exact _ (F32.add_valid _ _) h

/-- C17, amended, at a concrete input: for `(0,3,4)` the squares, their sum and the square root
are computed without rounding; the length is `5`, its square is the squared length `25`, and
it is not zero. -/
theorem vec3.length_spec_witness :
    (vec3.ofInts 0 3 4).length F32.sqrt = F32.ofInt 5 ∧
    (vec3.ofInts 0 3 4).length F32.sqrt * (vec3.ofInts 0 3 4).length F32.sqrt
      = (vec3.ofInts 0 3 4).lengthSquared ∧
    ((vec3.ofInts 0 3 4).length F32.sqrt = 0 ↔ vec3.ofInts 0 3 4 = vec3.ctor₀) :=
  ⟨by decide!, (vec3.length_spec (vec3.ofInts 0 3 4)).2.2.2.1 (by decide!),
    (vec3.length_spec (vec3.ofInts 0 3 4)).2.2.2.2.2.1 (by decide!)⟩

/-! ## The tangent branch is redundant -/

/-- C18: the separate `det == 0` branch of `rayIntersect` is not a behavioural necessity: the
two-branch variant (no hit when `det < 0`, otherwise `pointAtDist` of the smaller of
`t1 = -b + sqrt(det)` and `t2 = -b - sqrt(det)`) returns, for every sphere and ray, the same
boolean and the same hit point as the three-branch code, with exact arithmetic and in `float`
arithmetic. -/
theorem sphere.rayIntersectTwoBranch_eq :
    (∀ (s : sphere ℝ) (a : ray ℝ) (hit : vec3 ℝ),
      s.rayIntersectTwoBranch Real.sqrt a hit = s.rayIntersect Real.sqrt a hit) ∧
    (∀ (s : sphere F32) (a : ray F32) (hit : vec3 F32),
      s.rayIntersectTwoBranch F32.sqrt a hit = s.rayIntersect F32.sqrt a hit) := by
  constructor
  · intro s a hit
    rw [sphere.rayIntersectTwoBranch_unfold, sphere.rayIntersect_unfold]
    by_cases h1 : s.det a < 0
    · rw [if_pos h1, if_pos h1]
    · rw [if_neg h1, if_neg h1]
      by_cases h2 : s.det a = 0
      · rw [if_pos h2, h2, Real.sqrt_zero, add_zero, sub_zero, if_neg (lt_irrefl _)]
      · rw [if_neg h2]
  · intro s a hit
    rw [sphere.rayIntersectTwoBranch_unfold, sphere.rayIntersect_unfold]
    by_cases h1 : s.det a < 0
    · rw [if_pos h1, if_pos h1]
    · rw [if_neg h1, if_neg h1]
      by_cases h2 : s.det a = 0
      · have hs : F32.sqrt 0 = 0 := by decide
        have hv : F32.Valid (-s.coefB a) := F32.neg_valid _ (vec3.dot_valid _ _)
        rw [if_pos h2, h2, hs, F32.add_zero _ hv, F32.sub_zero _ hv,
          if_neg (F32.lt_irrefl _)]
      · rw [if_neg h2]

/-! ## Degenerate rays and spheres -/

